import Mathlib


/-!
Verification development for the mime-multipart crate (src/lib.rs):
a shallow embedding of its multipart parser, writers, boundary
resolution, part classification and file-part lifecycle, with proofs
about the embedded definitions.

Modelling conventions:
- Byte streams are lists of naturals (each a byte value).
- The buffered reader is modelled by explicit list consumption; the
  buf_read_ext token scanner is the function stream_until_token below.
- The typed header objects of the hyper crate (ContentType holding a
  mime::Mime, ContentDisposition) are modelled as inductive types that
  mirror the constructors the source pattern-matches on; a Headers value
  is the ordered list of typed entries.
- Fallible operations return Except Error.
- The recursive parser carries a fuel argument to make the recursion
  structural; OutOfFuel is an artifact of the embedding, and every
  theorem below either supplies sufficient fuel or proves a result that
  is not OutOfFuel.
-/

namespace MimeMultipart

/-- Byte strings: each entry is one byte value. -/
abbrev Bytes := List Nat

/-- The CRLF line terminator bytes. -/
def crlf : Bytes := [13, 10]

/-- The two-dash bytes that prefix boundary lines. -/
def ddash : Bytes := [45, 45]

/-- ASCII bytes of a string literal (used for concrete values only). -/
def bytesOfString (s : String) : Bytes := s.data.map Char.toNat

/-- Lowercase one ASCII byte. -/
def to_lower_byte (b : Nat) : Nat := if 65 ≤ b ∧ b ≤ 90 then b + 32 else b

/-- Lowercase an ASCII byte string. -/
def to_lower (s : Bytes) : Bytes := s.map to_lower_byte

/-- mime::TopLevel of the mime 0.2 crate; the source compares it against
TopLevel::Multipart only. -/
inductive TopLevel
  | star
  | text
  | image
  | audio
  | video
  | application
  | multipart
  | message
  | model
  | ext (s : Bytes)
deriving DecidableEq, Repr

/-- mime::Attr; the source matches Attr::Boundary. -/
inductive Attr
  | charset
  | boundary
  | q
  | ext (s : Bytes)
deriving DecidableEq, Repr

/-- mime::Value; the source matches Value::Ext when looking for the
boundary parameter. -/
inductive MimeValue
  | utf8
  | ext (s : Bytes)
deriving DecidableEq, Repr

/-- mime::Mime: top level, sub level, parameter list. -/
structure Mime where
  top : TopLevel
  sub : Bytes
  params : List (Attr × MimeValue)
deriving DecidableEq, Repr

/-- hyper DispositionType; the source compares against Attachment. -/
inductive DispositionType
  | inline
  | attachment
  | ext (s : Bytes)
deriving DecidableEq, Repr

/-- hyper Charset carried by a filename disposition parameter; the
classifier never inspects it. -/
inductive HCharset
  | usAscii
  | iso88591
  | ext (s : Bytes)
deriving DecidableEq, Repr

/-- hyper DispositionParam; the source matches the Filename constructor. -/
inductive DispositionParam
  | filename (c : HCharset) (lang : Option Bytes) (fname : Bytes)
  | ext (name value : Bytes)
deriving DecidableEq, Repr

/-- hyper ContentDisposition. -/
structure ContentDisposition where
  disposition : DispositionType
  parameters : List DispositionParam
deriving DecidableEq, Repr

/-- One typed header entry of a hyper Headers collection: the two header
fields the source reads through typed getters, and everything else as a
raw name/value pair. -/
inductive HeaderEntry
  | contentType (m : Mime)
  | contentDisposition (d : ContentDisposition)
  | ext (name value : Bytes)
deriving DecidableEq, Repr

/-- hyper Headers: the ordered list of entries. -/
abbrev Headers := List HeaderEntry

/-- headers.get::<ContentType>(): first Content-Type entry. -/
def Headers.getContentType : Headers → Option Mime
  | [] => none
  | .contentType m :: _ => some m
  | _ :: rest => Headers.getContentType rest

/-- headers.get::<ContentDisposition>(): first Content-Disposition entry. -/
def Headers.getContentDisposition : Headers → Option ContentDisposition
  | [] => none
  | .contentDisposition d :: _ => some d
  | _ :: rest => Headers.getContentDisposition rest

/-- Modelled from the spec: the error enumeration lives in error.rs, which
is not among the provided source files; the variants are those lib.rs
constructs, named as there, plus spec section 7's wrapped causes
(Httparse, Decoding, Io) and the OutOfFuel artifact of this embedding. -/
inductive Error
  | NoRequestContentType
  | NotMultipart
  | BoundaryNotSpecified
  | EofInMainHeaders
  | EofBeforeFirstBoundary
  | NoCrLfAfterBoundary
  | EofInPartHeaders
  | EofInFile
  | EofInPart
  | PartialHeaders
  | Httparse
  | Decoding
  | Io
  | OutOfFuel
deriving DecidableEq, Repr

deriving instance DecidableEq for Except

/-- The parameter scan inside get_multipart_boundary: the first parameter
matching (Attr::Boundary, Value::Ext(val)). -/
def findBoundaryParam : List (Attr × MimeValue) → Option Bytes
  | [] => none
  | (.boundary, .ext v) :: _ => some v
  | _ :: rest => findBoundaryParam rest

/-- get_multipart_boundary (lib.rs lines 320-342): requires a Content-Type
header of top level multipart with a boundary parameter, and returns the
two dashes followed by the boundary value. -/
def get_multipart_boundary (headers : Headers) : Except Error Bytes :=
  match headers.getContentType with
  | none => .error .NoRequestContentType
  | some m =>
    if m.top = TopLevel.multipart then
      match findBoundaryParam m.params with
      | none => .error .BoundaryNotSpecified
      | some v => .ok (ddash ++ v)
    else .error .NotMultipart

/-- Whether a disposition parameter is a Filename parameter
(the closure at lib.rs lines 282-285). -/
def isFilenameParam : DispositionParam → Bool
  | .filename _ _ _ => true
  | .ext _ _ => false

/-- The nested-multipart test of the parser (lib.rs lines 258-267): the
part's Content-Type exists and its top level is multipart. -/
def part_is_nested (part_headers : Headers) : Bool :=
  match part_headers.getContentType with
  | some m => decide (m.top = TopLevel.multipart)
  | none => false

/-- The file/inline test of the parser (lib.rs lines 276-290):
always_use_files, or a Content-Disposition that is Attachment or carries
a Filename parameter. -/
def part_is_file (part_headers : Headers) (always_use_files : Bool) : Bool :=
  always_use_files ||
    (match part_headers.getContentDisposition with
     | some cd =>
       if cd.disposition = DispositionType.attachment then true
       else cd.parameters.any isFilenameParam
     | none => false)

/-- The three classification outcomes for one parsed part. -/
inductive PartClass
  | container
  | fileBacked
  | inlinePart
deriving DecidableEq, Repr

/-- The classification decision exactly as the parsing loop makes it:
the nested test first (lib.rs lines 258-274), then the file test
(lines 276-315). -/
def classify_part (part_headers : Headers) (always_use_files : Bool) : PartClass :=
  if part_is_nested part_headers then .container
  else if part_is_file part_headers always_use_files then .fileBacked
  else .inlinePart

/-- The classifier as the specification words it (spec sections 4.4 and 8):
a part whose Content-Type top-level type is multipart is always a
container; otherwise it is file-backed iff always_use_files is true, or
its Content-Disposition is attachment, or it carries a filename
parameter; otherwise inline. -/
def classify_part_spec (part_headers : Headers) (always_use_files : Bool) : PartClass :=
  match part_headers.getContentType with
  | some m =>
    if m.top = TopLevel.multipart then .container
    else classify_part_spec_file part_headers always_use_files
  | none => classify_part_spec_file part_headers always_use_files
where
  classify_part_spec_file (part_headers : Headers) (always_use_files : Bool) : PartClass :=
    if always_use_files
        || (match part_headers.getContentDisposition with
            | some cd => decide (cd.disposition = DispositionType.attachment)
            | none => false)
        || (match part_headers.getContentDisposition with
            | some cd => cd.parameters.any isFilenameParam
            | none => false)
    then .fileBacked else .inlinePart

/-- Result of one token scan: the bytes copied to the sink, the bytes
remaining in the stream, and whether the token was found. -/
structure ScanResult where
  out : Bytes
  rest : Bytes
  found : Bool
deriving DecidableEq, Repr

/-- Modelled from the spec: the buf_read_ext token scanner collaborator
(spec section 4.1), whose source is not part of this repository. Copies
bytes from the stream until the exact token first appears, consuming but
not copying the token; at end of stream without the token it reports
found = false with everything copied. -/
def stream_until_token (tok : Bytes) : Bytes → ScanResult
  | [] => if tok.isPrefixOf ([] : Bytes) then ⟨[], [], true⟩ else ⟨[], [], false⟩
  | b :: rest =>
    if tok.isPrefixOf (b :: rest) then ⟨[], (b :: rest).drop tok.length, true⟩
    else
      let r := stream_until_token tok rest
      ⟨b :: r.out, r.rest, r.found⟩

/-- Split a byte string at its first colon. -/
def split_at_colon : Bytes → Option (Bytes × Bytes)
  | [] => none
  | c :: rest =>
    if c = 58 then some ([], rest)
    else (split_at_colon rest).map (fun p => (c :: p.1, p.2))

/-- Drop leading space bytes. -/
def skip_spaces : Bytes → Bytes
  | [] => []
  | c :: rest => if c = 32 then skip_spaces rest else c :: rest

/-- One raw header line parsed into a name and a value: the name is
everything before the first colon, the value follows after any spaces. -/
def parse_header_line (line : Bytes) : Option (Bytes × Bytes) :=
  (split_at_colon line).map (fun p => (p.1, skip_spaces p.2))

/-- Status reported by the header-block parser. -/
inductive HeaderParseStatus
  | complete (raw : List (Bytes × Bytes))
  | incomplete
  | err
deriving DecidableEq, Repr

/-- Modelled from the spec: the external header-block parser (the httparse
collaborator, whose source is not part of this repository). Per spec
sections 6, 7 and 9 it accepts a raw block ending in a blank line,
returns the ordered name/value list, reports an incomplete parse
distinctly from a hard syntax error, and a block holding more headers
than the allotted capacity is reported as incomplete rather than parsed
with a grown buffer. -/
def parse_headers : Nat → Bytes → Bytes → HeaderParseStatus
  | 0, lt, buf => if lt.isPrefixOf buf then .complete [] else .incomplete
  | cap + 1, lt, buf =>
    if lt.isPrefixOf buf then .complete []
    else if (stream_until_token lt buf).found = false then .incomplete
    else
      match parse_header_line (stream_until_token lt buf).out with
      | none => .err
      | some nv =>
        match parse_headers cap lt (stream_until_token lt buf).rest with
        | .complete raws => .complete (nv :: raws)
        | s => s

/-- Split a byte string at the first occurrence of a byte. -/
def split_on_first (sep : Nat) : Bytes → Option (Bytes × Bytes)
  | [] => none
  | c :: rest =>
    if c = sep then some ([], rest)
    else (split_on_first sep rest).map (fun p => (c :: p.1, p.2))

/-- Trim space bytes from both ends. -/
def trim (s : Bytes) : Bytes :=
  ((s.dropWhile (· == 32)).reverse.dropWhile (· == 32)).reverse

/-- Strip one pair of surrounding double quotes, when present. -/
def unquote (v : Bytes) : Bytes :=
  match v with
  | 34 :: rest => if rest.getLast? = some 34 then rest.dropLast else v
  | _ => v

/-- Modelled external collaborator (mime crate): parse a top-level type. -/
def top_level_of (s : Bytes) : TopLevel :=
  let l := to_lower s
  if l = bytesOfString "*" then .star
  else if l = bytesOfString "text" then .text
  else if l = bytesOfString "image" then .image
  else if l = bytesOfString "audio" then .audio
  else if l = bytesOfString "video" then .video
  else if l = bytesOfString "application" then .application
  else if l = bytesOfString "multipart" then .multipart
  else if l = bytesOfString "message" then .message
  else if l = bytesOfString "model" then .model
  else .ext l

/-- Modelled external collaborator (mime crate): display a top-level type. -/
def top_level_bytes : TopLevel → Bytes
  | .star => bytesOfString "*"
  | .text => bytesOfString "text"
  | .image => bytesOfString "image"
  | .audio => bytesOfString "audio"
  | .video => bytesOfString "video"
  | .application => bytesOfString "application"
  | .multipart => bytesOfString "multipart"
  | .message => bytesOfString "message"
  | .model => bytesOfString "model"
  | .ext s => s

/-- Modelled external collaborator (mime crate): parse an attribute name. -/
def attr_of (s : Bytes) : Attr :=
  let l := to_lower s
  if l = bytesOfString "charset" then .charset
  else if l = bytesOfString "boundary" then .boundary
  else if l = bytesOfString "q" then .q
  else .ext l

/-- Modelled external collaborator (mime crate): display an attribute name. -/
def attr_bytes : Attr → Bytes
  | .charset => bytesOfString "charset"
  | .boundary => bytesOfString "boundary"
  | .q => bytesOfString "q"
  | .ext s => s

/-- Modelled external collaborator (mime crate): parse a parameter value;
the utf-8 charset value gets the dedicated constructor. -/
def mime_value_of (a : Attr) (s : Bytes) : MimeValue :=
  if a = Attr.charset ∧ to_lower s = bytesOfString "utf-8" then .utf8 else .ext s

/-- Modelled external collaborator (mime crate): display a parameter value. -/
def mime_value_bytes : MimeValue → Bytes
  | .utf8 => bytesOfString "utf-8"
  | .ext s => s

/-- Modelled external collaborator (mime crate): parse one attr=value
parameter segment. -/
def parse_mime_param (seg : Bytes) : Option (Attr × MimeValue) :=
  (split_on_first 61 seg).map fun p =>
    let a := attr_of (trim p.1)
    (a, mime_value_of a (unquote (trim p.2)))

/-- Modelled external collaborator (mime crate): parse a mime type string
such as multipart/mixed; boundary=abc. -/
def parse_mime (v : Bytes) : Option Mime :=
  match v.splitOn 59 with
  | [] => none
  | first :: params =>
    match split_on_first 47 (trim first) with
    | none => none
    | some ts =>
      match params.mapM parse_mime_param with
      | none => none
      | some ps => some ⟨top_level_of ts.1, to_lower ts.2, ps⟩

/-- Modelled external collaborator (mime crate): display a mime type. -/
def mime_bytes (m : Mime) : Bytes :=
  top_level_bytes m.top ++ [47] ++ m.sub
    ++ (m.params.map
        (fun p => [59, 32] ++ attr_bytes p.1 ++ [61] ++ mime_value_bytes p.2)).flatten

/-- Modelled external collaborator (hyper): parse a disposition type. -/
def disposition_type_of (s : Bytes) : DispositionType :=
  let l := to_lower s
  if l = bytesOfString "inline" then .inline
  else if l = bytesOfString "attachment" then .attachment
  else .ext l

/-- Modelled external collaborator (hyper): display a disposition type. -/
def disposition_type_bytes : DispositionType → Bytes
  | .inline => bytesOfString "inline"
  | .attachment => bytesOfString "attachment"
  | .ext s => s

/-- Modelled external collaborator (hyper): parse one disposition
parameter segment. -/
def parse_cd_param (seg : Bytes) : Option DispositionParam :=
  (split_on_first 61 seg).map fun p =>
    let n := to_lower (trim p.1)
    if n = bytesOfString "filename" then
      .filename (.ext (bytesOfString "UTF-8")) none (unquote (trim p.2))
    else .ext n (unquote (trim p.2))

/-- Modelled external collaborator (hyper): parse a Content-Disposition
value string. -/
def parse_cd (v : Bytes) : Option ContentDisposition :=
  match v.splitOn 59 with
  | [] => none
  | first :: params =>
    (params.mapM parse_cd_param).map
      (fun ps => ⟨disposition_type_of (trim first), ps⟩)

/-- Modelled external collaborator (hyper): display one disposition
parameter. -/
def disposition_param_bytes : DispositionParam → Bytes
  | .filename _ _ f => bytesOfString "filename=" ++ [34] ++ f ++ [34]
  | .ext n v => n ++ [61] ++ v

/-- Modelled external collaborator (hyper): display a Content-Disposition
value. -/
def cd_bytes (d : ContentDisposition) : Bytes :=
  disposition_type_bytes d.disposition
    ++ (d.parameters.map (fun p => [59, 32] ++ disposition_param_bytes p)).flatten

/-- header.name() of one typed entry. -/
def header_name : HeaderEntry → Bytes
  | .contentType _ => bytesOfString "Content-Type"
  | .contentDisposition _ => bytesOfString "Content-Disposition"
  | .ext n _ => n

/-- header.value_string() of one typed entry. -/
def header_value : HeaderEntry → Bytes
  | .contentType m => mime_bytes m
  | .contentDisposition d => cd_bytes d
  | .ext _ v => v

/-- Modelled external collaborator (hyper Headers::from_raw combined with
the lazy typed getters): one raw name/value pair becomes a typed entry
when its name is Content-Type or Content-Disposition and its value
parses; otherwise it stays a raw entry. -/
def from_raw_entry (name value : Bytes) : HeaderEntry :=
  if to_lower name = bytesOfString "content-type" then
    match parse_mime value with
    | some m => .contentType m
    | none => .ext name value
  else if to_lower name = bytesOfString "content-disposition" then
    match parse_cd value with
    | some d => .contentDisposition d
    | none => .ext name value
  else .ext name value

/-- A multipart part kept in memory (lib.rs lines 29-41). -/
structure Part where
  headers : Headers
  body : Bytes
deriving DecidableEq, Repr

/-- A file-backed part (lib.rs lines 43-112). The content field models
the bytes stored in the file at path, which the Rust value reaches
through the filesystem. -/
structure FilePart where
  headers : Headers
  path : Bytes
  content : Bytes
  size : Option Nat
  tempdir : Option Bytes
deriving DecidableEq, Repr

/-- FilePart::new (lib.rs lines 58-66): wraps an existing path, owning no
storage. -/
def FilePart.new (headers : Headers) (path : Bytes) : FilePart :=
  { headers := headers, path := path, content := [], size := none, tempdir := none }

/-- FilePart::create (lib.rs lines 76-87): the temp-directory allocator
and the nonce generator are external collaborators, so the fresh
directory and file name arrive as arguments; the created value owns its
storage. -/
def FilePart.create (headers : Headers) (dir fname : Bytes) : FilePart :=
  { headers := headers, path := dir ++ [47] ++ fname, content := [], size := none,
    tempdir := some dir }

/-- FilePart::do_not_delete_on_drop (lib.rs lines 70-72). -/
def FilePart.do_not_delete_on_drop (fp : FilePart) : FilePart :=
  { fp with tempdir := none }

/-- A flat model of durable storage: the files (path with content) and
the directories that exist. -/
structure Storage where
  files : List (Bytes × Bytes)
  dirs : List Bytes
deriving DecidableEq, Repr

/-- std::fs::remove_file, best effort: removing an absent path is the
swallowed-failure case and leaves storage unchanged. -/
def remove_file (st : Storage) (p : Bytes) : Storage :=
  { st with files := st.files.filter (fun f => !(f.1 == p)) }

/-- std::fs::remove_dir, best effort: removing an absent directory is the
swallowed-failure case and leaves storage unchanged. -/
def remove_dir (st : Storage) (d : Bytes) : Storage :=
  { st with dirs := st.dirs.filter (fun x => !(x == d)) }

/-- Drop for FilePart (lib.rs lines 105-112): when the value still owns a
temp directory, remove the file, then the directory; otherwise nothing. -/
def FilePart.drop (st : Storage) (fp : FilePart) : Storage :=
  match fp.tempdir with
  | some d => remove_dir (remove_file st fp.path) d
  | none => st

/-- The FilePart the parser builds for one file-backed part: the created
temporary file with the streamed content and its recorded size (lib.rs
lines 291-305); the path and directory of the external temp-file
allocator are abstracted. -/
def parsed_file_part (hs : Headers) (content : Bytes) : FilePart :=
  { headers := hs, path := [], content := content, size := some content.length,
    tempdir := some [] }

/-- The parsed tree (lib.rs lines 114-124). -/
inductive Node
  | part (p : Part)
  | file (f : FilePart)
  | multipart (headers : Headers) (children : List Node)
deriving Repr

mutual

/-- The recursive parser inner (lib.rs lines 188-317), entry part:
resolve the boundary, scan past the initial boundary, fix the
line-terminator convention from the next bytes, then run the part loop.
The first argument is recursion fuel (see the module comment). -/
def inner : Nat → Headers → Bool → Bytes → Except Error (List Node × Bytes)
  | 0, _, _, _ => .error .OutOfFuel
  | fuel + 1, headers, always_use_files, input =>
    match get_multipart_boundary headers with
    | .error e => .error e
    | .ok boundary =>
      if (stream_until_token boundary input).found = false then
        .error .EofBeforeFirstBoundary
      else if (stream_until_token boundary input).rest.take 2 = crlf then
        inner_loop fuel crlf (crlf ++ crlf) (crlf ++ boundary) always_use_files
          (stream_until_token boundary input).rest []
      else if (stream_until_token boundary input).rest.take 1 = [10] then
        inner_loop fuel [10] [10, 10] (10 :: boundary) always_use_files
          (stream_until_token boundary input).rest []
      else .error .NoCrLfAfterBoundary

/-- The part loop of inner (lib.rs lines 225-316): stop at a double dash,
otherwise consume the boundary line terminator, the header block, and
the part content, classifying each part as nested, file-backed or
inline. -/
def inner_loop : Nat → Bytes → Bytes → Bytes → Bool → Bytes → List Node →
    Except Error (List Node × Bytes)
  | 0, _, _, _, _, _, _ => .error .OutOfFuel
  | fuel + 1, lt, ltlt, lt_boundary, always_use_files, input, nodes =>
    if input.take 2 = ddash then .ok (nodes.reverse, input)
    else if (stream_until_token lt input).found = false then
      .error .NoCrLfAfterBoundary
    else
      inner_part fuel lt ltlt lt_boundary always_use_files
        (stream_until_token lt input).rest nodes

/-- One part of the loop body, from the header-block scan on (factored
out of the source loop at lib.rs lines 238-315 for the embedding; the
stream argument is positioned right after the boundary line's
terminator). -/
def inner_part : Nat → Bytes → Bytes → Bytes → Bool → Bytes → List Node →
    Except Error (List Node × Bytes)
  | 0, _, _, _, _, _, _ => .error .OutOfFuel
  | fuel + 1, lt, ltlt, lt_boundary, always_use_files, input, nodes =>
    if (stream_until_token ltlt input).found = false then .error .EofInPartHeaders
    else
      match parse_headers 4 lt ((stream_until_token ltlt input).out ++ ltlt) with
      | .incomplete => .error .PartialHeaders
      | .err => .error .Httparse
      | .complete raws =>
        if part_is_nested (raws.map (fun nv => from_raw_entry nv.1 nv.2)) then
          match inner fuel (raws.map (fun nv => from_raw_entry nv.1 nv.2))
              always_use_files (stream_until_token ltlt input).rest with
          | .error e => .error e
          | .ok (children, rest2) =>
            inner_loop fuel lt ltlt lt_boundary always_use_files rest2
              (Node.multipart (raws.map (fun nv => from_raw_entry nv.1 nv.2))
                children :: nodes)
        else if part_is_file (raws.map (fun nv => from_raw_entry nv.1 nv.2))
            always_use_files then
          if (stream_until_token lt_boundary
              (stream_until_token ltlt input).rest).found = false then
            .error .EofInFile
          else
            inner_loop fuel lt ltlt lt_boundary always_use_files
              (stream_until_token lt_boundary (stream_until_token ltlt input).rest).rest
              (Node.file (parsed_file_part (raws.map (fun nv => from_raw_entry nv.1 nv.2))
                (stream_until_token lt_boundary
                  (stream_until_token ltlt input).rest).out) :: nodes)
        else
          if (stream_until_token lt_boundary
              (stream_until_token ltlt input).rest).found = false then
            .error .EofInPart
          else
            inner_loop fuel lt ltlt lt_boundary always_use_files
              (stream_until_token lt_boundary (stream_until_token ltlt input).rest).rest
              (Node.part (Part.mk (raws.map (fun nv => from_raw_entry nv.1 nv.2))
                (stream_until_token lt_boundary
                  (stream_until_token ltlt input).rest).out) :: nodes)

end

/-- read_multipart_body (lib.rs lines 176-186): run inner on the stream
with the headers supplied separately, returning the node list. The fuel
supplied is generous: the loop consumes at least one byte per step. -/
def read_multipart_body (input : Bytes) (headers : Headers)
    (always_use_files : Bool) : Except Error (List Node) :=
  match inner (input.length + 2) headers always_use_files input with
  | .ok (nodes, _) => .ok nodes
  | .error e => .error e

/-- read_multipart (lib.rs lines 136-164): scan the top-level header
block up to the CRLFCRLF blank line, parse it with capacity 64, then run
inner on the remaining stream. -/
def read_multipart (input : Bytes) (always_use_files : Bool) :
    Except Error (List Node) :=
  if (stream_until_token (crlf ++ crlf) input).found = false then
    .error .EofInMainHeaders
  else
    match parse_headers 64 crlf
        ((stream_until_token (crlf ++ crlf) input).out ++ (crlf ++ crlf)) with
    | .incomplete => .error .PartialHeaders
    | .err => .error .Httparse
    | .complete raws =>
      match inner ((stream_until_token (crlf ++ crlf) input).rest.length + 2)
          (raws.map (fun nv => from_raw_entry nv.1 nv.2)) always_use_files
          (stream_until_token (crlf ++ crlf) input).rest with
      | .ok (nodes, _) => .ok nodes
      | .error e => .error e

/-- The header serialization both writers perform per node: name, a colon
and space, value_string, CRLF for each header in order. -/
def write_headers (hs : Headers) : Bytes :=
  (hs.map (fun e => header_name e ++ [58, 32] ++ header_value e ++ crlf)).flatten

mutual

/-- The per-node bytes of write_multipart (lib.rs lines 436-486), after
the boundary line: headers, blank line, then content - the part body,
the file content, or the recursively written nested multipart with its
own resolved boundary and final boundary. -/
def write_node : Node → Except Error Bytes
  | .part p => .ok (write_headers p.headers ++ crlf ++ p.body)
  | .file f => .ok (write_headers f.headers ++ crlf ++ f.content)
  | .multipart hs children =>
    match get_multipart_boundary hs with
    | .error e => .error e
    | .ok b2 =>
      match write_nodes b2 children with
      | .error e => .error e
      | .ok s => .ok (write_headers hs ++ crlf ++ (s ++ ddash ++ b2 ++ ddash))

/-- The node loop of write_multipart (lib.rs lines 430-490): for each
node a boundary line, the node bytes, and a trailing line terminator. -/
def write_nodes (boundary : Bytes) : List Node → Except Error Bytes
  | [] => .ok []
  | n :: rest =>
    match write_node n with
    | .error e => .error e
    | .ok s1 =>
      match write_nodes boundary rest with
      | .error e => .error e
      | .ok s2 => .ok (ddash ++ boundary ++ crlf ++ s1 ++ crlf ++ s2)

end

/-- write_multipart (lib.rs lines 422-498): the node loop followed by the
final boundary. The returned byte count of the Rust function is the
length of the returned stream. -/
def write_multipart (boundary : Bytes) (nodes : List Node) : Except Error Bytes :=
  match write_nodes boundary nodes with
  | .error e => .error e
  | .ok s => .ok (s ++ ddash ++ boundary ++ ddash)

/-- Lowercase hexadecimal digits of a number, as bytes. -/
def hex_bytes (n : Nat) : Bytes := (Nat.toDigits 16 n).map Char.toNat

/-- write_chunk (lib.rs lines 500-508): the wire framing of one chunk -
hexadecimal length line, terminator, payload, terminator. -/
def write_chunk_framed (c : Bytes) : Bytes :=
  hex_bytes c.length ++ crlf ++ c ++ crlf

/-- The full chunked wire stream for a payload sequence. -/
def chunked_byte_stream (chunks : List Bytes) : Bytes :=
  (chunks.map write_chunk_framed).flatten

/-- The chunk payloads a part or file emits for its headers: one chunk
per write_chunk call in lib.rs lines 528-533 and 543-548. -/
def header_chunks (hs : Headers) : List Bytes :=
  (hs.map (fun e => [header_name e, [58, 32], header_value e, crlf])).flatten

mutual

/-- The chunk payloads of one node in write_multipart_chunked (lib.rs
lines 525-580), after the boundary-line chunks: header chunks, a blank
line chunk, then the content - the part body as one chunk, the file
content as one directly framed chunk, or the nested multipart's chunks
including its final boundary and its terminating empty chunk. -/
def chunk_node : Node → Except Error (List Bytes)
  | .part p => .ok (header_chunks p.headers ++ [crlf, p.body])
  | .file f => .ok (header_chunks f.headers ++ [crlf, f.content])
  | .multipart hs children =>
    match get_multipart_boundary hs with
    | .error e => .error e
    | .ok b2 =>
      match chunk_nodes b2 children with
      | .error e => .error e
      | .ok cs =>
        .ok (header_chunks hs ++ [crlf] ++ (cs ++ [ddash, b2, ddash, []]))

/-- The node loop of write_multipart_chunked (lib.rs lines 519-584). -/
def chunk_nodes (boundary : Bytes) : List Node → Except Error (List Bytes)
  | [] => .ok []
  | n :: rest =>
    match chunk_node n with
    | .error e => .error e
    | .ok cs1 =>
      match chunk_nodes boundary rest with
      | .error e => .error e
      | .ok cs2 => .ok ([ddash, boundary, crlf] ++ cs1 ++ [crlf] ++ cs2)

end

/-- write_multipart_chunked (lib.rs lines 513-595) as its sequence of
chunk payloads in emission order: the node loop, the final boundary
chunks, and the terminating empty chunk. The wire stream is
chunked_byte_stream of this sequence. -/
def write_multipart_chunked (boundary : Bytes) (nodes : List Node) :
    Except Error (List Bytes) :=
  match chunk_nodes boundary nodes with
  | .error e => .error e
  | .ok cs => .ok (cs ++ [ddash, boundary, ddash, []])

/-- The boundary resolver as the specification and claim C7 word it: no
Content-Type header fails with the no-Content-Type error; a top-level
type other than multipart fails with NotMultipart; a multipart type
without a boundary parameter fails with BoundaryNotSpecified; otherwise
the result is the two-dash bytes followed by the boundary value. -/
def boundary_of_spec (headers : Headers) : Except Error Bytes :=
  match headers.getContentType with
  | none => .error .NoRequestContentType
  | some m =>
    if m.top ≠ TopLevel.multipart then .error .NotMultipart
    else
      match m.params.findSome?
          (fun p => match p with | (.boundary, .ext v) => some v | _ => none) with
      | none => .error .BoundaryNotSpecified
      | some v => .ok ([45, 45] ++ v)

theorem findBoundaryParam_eq_findSome (ps : List (Attr × MimeValue)) :
    findBoundaryParam ps =
      ps.findSome? (fun p => match p with | (.boundary, .ext v) => some v | _ => none) := by
  induction ps with
  | nil => rfl
  | cons p rest ih =>
    rcases p with ⟨a, v⟩
    cases a <;> cases v <;> simp [findBoundaryParam, List.findSome?_cons, ih]

/-- C7: get_multipart_boundary resolves the boundary exactly as the claim
states: the no-Content-Type error without a Content-Type header,
NotMultipart for a non-multipart top-level type, BoundaryNotSpecified
for a multipart type without a boundary parameter, and otherwise exactly
the two dashes followed by the boundary parameter value. -/
theorem get_multipart_boundary_matches_spec (headers : Headers) :
    get_multipart_boundary headers = boundary_of_spec headers := by
  unfold get_multipart_boundary boundary_of_spec
  cases hct : headers.getContentType with
  | none => rfl
  | some m =>
    by_cases h : m.top = TopLevel.multipart <;>
      cases hfb : findBoundaryParam m.params <;>
        simp [h, hfb, ddash, ← findBoundaryParam_eq_findSome]

/-- C2: the parsing loop's classification decision matches the
specification's classifier word for word: nested-multipart detection
takes precedence, then file-backed iff always_use_files or an attachment
disposition or a filename parameter, otherwise inline. -/
theorem classify_part_matches_spec (part_headers : Headers) (always_use_files : Bool) :
    classify_part part_headers always_use_files =
      classify_part_spec part_headers always_use_files := by
  unfold classify_part classify_part_spec classify_part_spec.classify_part_spec_file
    part_is_nested part_is_file
  cases hct : part_headers.getContentType with
  | none =>
    cases hcd : part_headers.getContentDisposition with
    | none => cases always_use_files <;> simp
    | some cd =>
      by_cases hatt : cd.disposition = DispositionType.attachment <;>
        cases always_use_files <;> simp [hatt]
  | some m =>
    by_cases htop : m.top = TopLevel.multipart
    · simp [htop]
    · cases hcd : part_headers.getContentDisposition with
      | none => cases always_use_files <;> simp [htop]
      | some cd =>
        by_cases hatt : cd.disposition = DispositionType.attachment <;>
          cases always_use_files <;> simp [htop, hatt]

/-- C8: a FilePart made by FilePart::create owns its storage, and its
drop removes the backing file and the containing temp directory from
storage (cleanup is a total best-effort operation: absent entries are
the swallowed-failure case); after do_not_delete_on_drop, drop removes
nothing. -/
theorem filepart_create_drop_cleans (hs : Headers) (dir fname : Bytes) (st : Storage) :
    ((FilePart.drop st (FilePart.create hs dir fname)).files.all
      (fun f => !(f.1 == (FilePart.create hs dir fname).path))) = true
  ∧ ((FilePart.drop st (FilePart.create hs dir fname)).dirs.all
      (fun d => !(d == dir))) = true
  ∧ FilePart.drop st ((FilePart.create hs dir fname).do_not_delete_on_drop) = st := by
  refine ⟨?_, ?_, rfl⟩
  · simp only [FilePart.drop, FilePart.create, remove_dir, remove_file,
      List.all_eq_true, List.mem_filter]
    intro f hf
    exact hf.2
  · simp only [FilePart.drop, FilePart.create, remove_dir, remove_file,
      List.all_eq_true, List.mem_filter]
    intro d hd
    exact hd.2

/-- C10: a FilePart made by the public FilePart::new constructor owns no
storage (its temp-directory field is None), so dropping it never deletes
anything from storage; FilePart::create is the constructor that
produces an owning value. -/
theorem filepart_new_drop_is_noop (hs : Headers) (path : Bytes) (st : Storage)
    (dir fname : Bytes) :
    (FilePart.new hs path).tempdir = none
  ∧ FilePart.drop st (FilePart.new hs path) = st
  ∧ (FilePart.create hs dir fname).tempdir = some dir :=
  ⟨rfl, rfl, rfl⟩

theorem header_chunks_flatten (hs : Headers) :
    (header_chunks hs).flatten = write_headers hs := by
  induction hs with
  | nil => rfl
  | cons e rest ih =>
    simp [header_chunks, write_headers] at ih ⊢
    simp [ih]

mutual

theorem chunk_node_flatten (n : Node) :
    (chunk_node n).map List.flatten = write_node n := by
  cases n with
  | part p => simp [chunk_node, write_node, Except.map, header_chunks_flatten]
  | file f => simp [chunk_node, write_node, Except.map, header_chunks_flatten]
  | multipart hs children =>
    simp only [chunk_node, write_node]
    cases hgb : get_multipart_boundary hs with
    | error e => simp [Except.map]
    | ok b2 =>
      have h2 := chunk_nodes_flatten b2 children
      cases hcn : chunk_nodes b2 children with
      | error e =>
        rw [hcn] at h2
        simp only [Except.map] at h2
        simp [hcn, ← h2, Except.map]
      | ok cs =>
        rw [hcn] at h2
        simp only [Except.map] at h2
        simp [hcn, ← h2, Except.map, header_chunks_flatten]

theorem chunk_nodes_flatten (b : Bytes) (ns : List Node) :
    (chunk_nodes b ns).map List.flatten = write_nodes b ns := by
  cases ns with
  | nil => simp [chunk_nodes, write_nodes, Except.map]
  | cons n rest =>
    simp only [chunk_nodes, write_nodes]
    have h1 := chunk_node_flatten n
    cases hcn : chunk_node n with
    | error e =>
      rw [hcn] at h1
      simp only [Except.map] at h1
      rw [← h1]
      simp [Except.map]
    | ok cs1 =>
      rw [hcn] at h1
      simp only [Except.map] at h1
      rw [← h1]
      have h2 := chunk_nodes_flatten b rest
      cases hcr : chunk_nodes b rest with
      | error e =>
        rw [hcr] at h2
        simp only [Except.map] at h2
        rw [← h2]
        simp [Except.map]
      | ok cs2 =>
        rw [hcr] at h2
        simp only [Except.map] at h2
        rw [← h2]
        simp [Except.map]

end

/-- C4: the chunked writer is byte-equivalent to the plain writer: on
every boundary and node list the chunked writer fails exactly when the
plain writer fails, and on success the concatenation of all emitted
chunk payloads (in order, including the terminating empty chunk) is the
plain writer's byte stream. In particular, whenever write_multipart
succeeds, write_multipart_chunked succeeds with payload concatenation
equal to the plain stream. -/
theorem write_multipart_chunked_payloads_eq (boundary : Bytes) (nodes : List Node) :
    (write_multipart_chunked boundary nodes).map List.flatten =
      write_multipart boundary nodes := by
  unfold write_multipart_chunked write_multipart
  have h := chunk_nodes_flatten boundary nodes
  cases hcn : chunk_nodes boundary nodes with
  | error e =>
    rw [hcn] at h
    simp only [Except.map] at h
    rw [← h]
    simp [Except.map]
  | ok cs =>
    rw [hcn] at h
    simp only [Except.map] at h
    rw [← h]
    simp [Except.map]

/-- A header entry whose serialized name and value are nonempty, so the
per-header chunks the chunked writer emits for it are all nonempty. -/
def chunk_safe_entry (e : HeaderEntry) : Bool :=
  !(header_name e).isEmpty && !(header_value e).isEmpty

/-- A node whose chunked serialization emits no empty payload of its own:
a part or file node with chunk-safe headers and nonempty body or
content. Nested Multipart nodes are excluded: their recursive
serialization ends in an inner terminating empty chunk. -/
def chunk_safe_node : Node → Bool
  | .part p => p.headers.all chunk_safe_entry && !p.body.isEmpty
  | .file f => f.headers.all chunk_safe_entry && !f.content.isEmpty
  | .multipart _ _ => false

theorem header_chunks_nonempty (hs : Headers) (h : hs.all chunk_safe_entry = true) :
    (header_chunks hs).all (fun c => !c.isEmpty) = true := by
  induction hs with
  | nil => rfl
  | cons e rest ih =>
    rw [List.all_cons, Bool.and_eq_true] at h
    have h1 := h.1
    rw [chunk_safe_entry, Bool.and_eq_true] at h1
    have hsplit : header_chunks (e :: rest) =
        [header_name e, [58, 32], header_value e, crlf] ++ header_chunks rest := by
      simp [header_chunks]
    rw [hsplit, List.all_append, Bool.and_eq_true]
    exact ⟨by simp [h1.1, h1.2, crlf], ih h.2⟩

theorem chunk_nodes_flat_all_nonempty (b : Bytes) (ns : List Node) (hb : b ≠ [])
    (h : ns.all chunk_safe_node = true) :
    ∃ cs, chunk_nodes b ns = .ok cs ∧ cs.all (fun c => !c.isEmpty) = true := by
  induction ns with
  | nil => exact ⟨[], rfl, rfl⟩
  | cons n rest ih =>
    rw [List.all_cons, Bool.and_eq_true] at h
    obtain ⟨cs2, hcs2, hall2⟩ := ih h.2
    have hbne : b.isEmpty = false := by
      cases b
      · exact absurd rfl hb
      · rfl
    cases n with
    | part p =>
      have hn := h.1
      rw [chunk_safe_node, Bool.and_eq_true] at hn
      refine ⟨[ddash, b, crlf] ++ ((header_chunks p.headers ++ [crlf, p.body]) ++
        ([crlf] ++ cs2)), ?_, ?_⟩
      · simp [chunk_nodes, chunk_node, hcs2]
      · simp [List.all_append, List.all_cons, hall2, hbne, hn.2, ddash, crlf,
          header_chunks_nonempty _ hn.1]
    | file f =>
      have hn := h.1
      rw [chunk_safe_node, Bool.and_eq_true] at hn
      refine ⟨[ddash, b, crlf] ++ ((header_chunks f.headers ++ [crlf, f.content]) ++
        ([crlf] ++ cs2)), ?_, ?_⟩
      · simp [chunk_nodes, chunk_node, hcs2]
      · simp [List.all_append, List.all_cons, hall2, hbne, hn.2, ddash, crlf,
          header_chunks_nonempty _ hn.1]
    | multipart hs children =>
      have hn := h.1
      rw [chunk_safe_node] at hn
      exact absurd hn (by simp)

/-- C5 (amended): for a nonempty boundary and a flat node list - no
nested Multipart nodes, every part or file with nonempty body or content
and nonempty header names and values - the chunk sequence emitted by
write_multipart_chunked contains exactly one zero-length chunk, and it
is the final chunk of the whole body, emitted after the final outer
boundary; no earlier chunk is empty. The unamended claim fails on the
code: the recursion for a nested Multipart node emits that node's own
terminating zero-length chunk mid-stream, and an empty part body or file
content is also framed as a zero-length chunk mid-stream. -/
theorem write_multipart_chunked_single_empty_final (b : Bytes) (ns : List Node)
    (cs : List Bytes) (hb : b ≠ []) (h : ns.all chunk_safe_node = true)
    (hw : write_multipart_chunked b ns = .ok cs) :
    cs ≠ [] ∧ cs.getLast? = some [] ∧ cs.dropLast.all (fun c => !c.isEmpty) = true := by
  obtain ⟨cs0, hcs0, hall⟩ := chunk_nodes_flat_all_nonempty b ns hb h
  unfold write_multipart_chunked at hw
  rw [hcs0] at hw
  have hcs : cs = cs0 ++ [ddash, b, ddash, []] := by
    cases hw
    rfl
  subst hcs
  have hsplit : cs0 ++ [ddash, b, ddash, []] = (cs0 ++ [ddash, b, ddash]) ++ [[]] := by
    simp
  refine ⟨by simp, ?_, ?_⟩
  · rw [hsplit, List.getLast?_concat]
  · rw [hsplit, List.dropLast_concat]
    simp [List.all_append, List.all_cons, hall, ddash]
    simpa [List.isEmpty_iff] using hb

/-- A node list consisting of one nested Multipart node with no
children, used to refute the unamended claim C5. -/
def c5_cex_nodes : List Node :=
  [Node.multipart
    [HeaderEntry.contentType ⟨TopLevel.multipart, bytesOfString "mixed",
      [(Attr.boundary, MimeValue.ext (bytesOfString "x"))]⟩] []]

/-- C5 counterexample: on a tree holding one nested Multipart node the
chunked writer succeeds and its chunk sequence contains two zero-length
chunks - the nested recursion emits its own terminating empty chunk in
the middle of the stream - so the chunk sequence does not contain
exactly one zero-length chunk at the end, refuting the claim as
stated. -/
theorem write_multipart_chunked_two_empty_chunks :
    (write_multipart_chunked (bytesOfString "b") c5_cex_nodes).map
      (fun cs => cs.countP (fun c => c.isEmpty)) = .ok 2 := by rfl

/-- One-part node list used by the C5 witness. -/
def c5_wit_nodes : List Node := [Node.part ⟨[HeaderEntry.ext [88] [49]], [104, 105]⟩]

/-- The chunk sequence the chunked writer emits for c5_wit_nodes. -/
def c5_wit_chunks : List Bytes :=
  match write_multipart_chunked (bytesOfString "b") c5_wit_nodes with
  | .ok cs => cs
  | .error _ => []

/-- Witness for the amended C5 theorem at a concrete flat tree. -/
theorem write_multipart_chunked_single_empty_final_witness :
    c5_wit_chunks ≠ [] ∧ c5_wit_chunks.getLast? = some [] ∧
      c5_wit_chunks.dropLast.all (fun c => !c.isEmpty) = true :=
  write_multipart_chunked_single_empty_final (bytesOfString "b") c5_wit_nodes
    c5_wit_chunks (by decide) (by decide) (by rfl)

theorem isPrefixOf_append_self (a b : Bytes) : a.isPrefixOf (a ++ b) = true := by
  induction a with
  | nil => simp
  | cons x a' ih => simp [List.isPrefixOf_cons₂, ih]

theorem isPrefixOf_of_isPrefixOf_append (tok x y : Bytes) (hlen : tok.length ≤ x.length)
    (h : tok.isPrefixOf (x ++ y) = true) : tok.isPrefixOf x = true := by
  induction tok generalizing x with
  | nil => simp
  | cons t tt ih =>
    cases x with
    | nil => simp at hlen
    | cons b x' =>
      simp only [List.cons_append, List.isPrefixOf_cons₂, Bool.and_eq_true] at h ⊢
      exact ⟨h.1, ih x' (by simpa using hlen) h.2⟩

theorem sut_self_start (tok rest : Bytes) (h : tok ≠ []) :
    stream_until_token tok (tok ++ rest) = ⟨[], rest, true⟩ := by
  cases tok with
  | nil => exact absurd rfl h
  | cons t tt =>
    rw [show (t :: tt) ++ rest = t :: (tt ++ rest) from rfl, stream_until_token]
    have hp : (t :: tt).isPrefixOf (t :: (tt ++ rest)) = true := by
      rw [show t :: (tt ++ rest) = (t :: tt) ++ rest from rfl]
      exact isPrefixOf_append_self _ _
    rw [if_pos hp]
    have hd : (t :: (tt ++ rest) : Bytes).drop (t :: tt).length = rest := by
      rw [show t :: (tt ++ rest) = (t :: tt) ++ rest from rfl]
      exact List.drop_left _ _
    rw [hd]

/-- No occurrence of the token strictly before the end of a: at every
index below the length of a, the token is not a prefix of the remaining
stream a followed by the token itself. -/
def no_early_occur (tok a : Bytes) : Bool :=
  decide (∀ i < a.length, tok.isPrefixOf ((a ++ tok).drop i) = false)

theorem no_early_iff (tok a : Bytes) :
    no_early_occur tok a = true ↔
      ∀ i < a.length, tok.isPrefixOf ((a ++ tok).drop i) = false := by
  rw [no_early_occur]
  exact decide_eq_true_iff

theorem no_early_head (tok : Bytes) (c : Nat) (a' : Bytes)
    (h : no_early_occur tok (c :: a') = true) :
    tok.isPrefixOf ((c :: a') ++ tok) = false ∧ no_early_occur tok a' = true := by
  rw [no_early_iff] at h
  constructor
  · simpa using h 0 (Nat.succ_pos _)
  · rw [no_early_iff]
    intro i hi
    have hstep := h (i + 1) (Nat.succ_lt_succ hi)
    simpa [List.cons_append, List.drop_succ_cons] using hstep

theorem sut_append (tok a rest : Bytes) (htok : tok ≠ [])
    (h : no_early_occur tok a = true) :
    stream_until_token tok (a ++ (tok ++ rest)) = ⟨a, rest, true⟩ := by
  induction a with
  | nil => simpa using sut_self_start tok rest htok
  | cons c a' ih =>
    obtain ⟨hp, hrest⟩ := no_early_head tok c a' h
    have h0 : tok.isPrefixOf ((c :: a') ++ (tok ++ rest)) = false := by
      by_contra hcon
      rw [Bool.not_eq_false] at hcon
      have : tok.isPrefixOf ((c :: a') ++ tok) = true := by
        refine isPrefixOf_of_isPrefixOf_append tok ((c :: a') ++ tok) rest ?_ ?_
        · simp
          omega
        · rw [List.append_assoc]
          exact hcon
      rw [this] at hp
      simp at hp
    have hi := ih hrest
    simp only [List.cons_append] at h0 ⊢
    rw [stream_until_token, if_neg (by simp [h0])]
    simp only [List.cons_append] at hi
    rw [hi]

theorem no_early_of_no_head_byte (t0 : Nat) (tt a : Bytes)
    (h : ∀ b ∈ a, ¬ b = t0) : no_early_occur (t0 :: tt) a = true := by
  rw [no_early_iff]
  intro i hi
  have hd : (a ++ t0 :: tt).drop i = a.drop i ++ t0 :: tt :=
    List.drop_append_of_le_length (le_of_lt hi)
  have hne : a.drop i = a[i] :: a.drop (i + 1) := List.drop_eq_getElem_cons hi
  have hmem : a[i] ∈ a := List.getElem_mem hi
  have hne2 : ¬ a[i] = t0 := h _ hmem
  rw [hd, hne, List.cons_append, List.isPrefixOf_cons₂]
  have hb : (t0 == a[i]) = false := beq_eq_false_iff_ne.mpr (fun hcon => hne2 hcon.symm)
  rw [hb, Bool.false_and]

theorem sut_found_length (tok l : Bytes) :
    (stream_until_token tok l).found = true →
      l.length = (stream_until_token tok l).out.length + tok.length +
        (stream_until_token tok l).rest.length := by
  induction l with
  | nil =>
    intro h
    rw [stream_until_token] at h ⊢
    by_cases hp : tok.isPrefixOf ([] : Bytes) = true
    · have : tok = [] := by
        cases tok with
        | nil => rfl
        | cons t tt => simp [List.isPrefixOf] at hp
      simp [hp, this]
    · rw [if_neg (by simpa using hp)] at h
      simp at h
  | cons c rest ih =>
    intro h
    rw [stream_until_token] at h ⊢
    by_cases hp : tok.isPrefixOf (c :: rest) = true
    · rw [if_pos hp] at h ⊢
      have hlen : tok.length ≤ (c :: rest).length := by
        clear h ih
        induction tok generalizing c rest with
        | nil => simp
        | cons t tt iht =>
          simp only [List.isPrefixOf, Bool.and_eq_true] at hp
          cases rest with
          | nil =>
            cases tt with
            | nil => simp
            | cons u uu => simp [List.isPrefixOf] at hp
          | cons d rest' =>
            have := iht d rest' hp.2
            simpa [Nat.succ_le_succ_iff] using this
      simp only [List.length_nil, List.length_drop]
      omega
    · rw [if_neg (by simpa using hp)] at h ⊢
      have := ih h
      simp only [List.length_cons]
      omega

theorem sut_not_found (tok l : Bytes) :
    (stream_until_token tok l).found = false →
      stream_until_token tok l = ⟨l, [], false⟩ := by
  induction l with
  | nil =>
    intro h
    rw [stream_until_token] at h
    by_cases hp : tok.isPrefixOf ([] : Bytes) = true
    · rw [if_pos hp] at h
      simp at h
    · rw [if_neg (by simpa using hp)] at h
      rw [stream_until_token, if_neg (by simpa using hp)]
  | cons c rest ih =>
    intro h
    rw [stream_until_token] at h
    by_cases hp : tok.isPrefixOf (c :: rest) = true
    · rw [if_pos hp] at h
      simp at h
    · rw [if_neg (by simpa using hp)] at h
      have hr := ih h
      rw [stream_until_token, if_neg (by simpa using hp), hr]

/-- One serialized header line without its terminator. -/
def header_line (e : HeaderEntry) : Bytes :=
  header_name e ++ [58, 32] ++ header_value e

/-- The raw header block as the part-header scan captures it: the lines
separated by CRLF, without a trailing terminator. -/
def header_scan_buf : Headers → Bytes
  | [] => []
  | [e] => header_line e
  | e :: rest => header_line e ++ crlf ++ header_scan_buf rest

/-- The buffer handed to the header parser: each line with its CRLF, then
the blank-line CRLF. -/
def hdr_buf : Headers → Bytes
  | [] => crlf
  | e :: rest => header_line e ++ crlf ++ hdr_buf rest

/-- A header entry that serializes to a well-formed reparseable line:
nonempty name free of CR, LF and colons, value free of CR and LF and not
starting with a space, and the entry survives the raw round trip through
the header codecs. -/
def wf_header_entry (e : HeaderEntry) : Bool :=
  decide (header_name e ≠ []
    ∧ (∀ b ∈ header_name e, ¬ b = 13 ∧ ¬ b = 10 ∧ ¬ b = 58)
    ∧ (∀ b ∈ header_value e, ¬ b = 13 ∧ ¬ b = 10)
    ∧ (header_value e).head? ≠ some 32
    ∧ from_raw_entry (header_name e) (header_value e) = e)

theorem wf_header_entry_iff (e : HeaderEntry) :
    wf_header_entry e = true ↔
      (header_name e ≠ []
        ∧ (∀ b ∈ header_name e, ¬ b = 13 ∧ ¬ b = 10 ∧ ¬ b = 58)
        ∧ (∀ b ∈ header_value e, ¬ b = 13 ∧ ¬ b = 10)
        ∧ (header_value e).head? ≠ some 32
        ∧ from_raw_entry (header_name e) (header_value e) = e) := by
  rw [wf_header_entry]
  exact decide_eq_true_iff

theorem hdr_buf_eq (hs : Headers) (h : hs ≠ []) :
    header_scan_buf hs ++ (crlf ++ crlf) = hdr_buf hs := by
  induction hs with
  | nil => exact absurd rfl h
  | cons e rest ih =>
    cases rest with
    | nil => simp [header_scan_buf, hdr_buf]
    | cons r t =>
      rw [show header_scan_buf (e :: r :: t) =
        header_line e ++ crlf ++ header_scan_buf (r :: t) from rfl]
      rw [hdr_buf]
      have := ih (by simp)
      simp only [List.append_assoc] at this ⊢
      rw [this]

theorem write_headers_eq (hs : Headers) (h : hs ≠ []) :
    write_headers hs = header_scan_buf hs ++ crlf := by
  induction hs with
  | nil => exact absurd rfl h
  | cons e rest ih =>
    cases rest with
    | nil => simp [write_headers, header_scan_buf, header_line]
    | cons r t =>
      rw [show header_scan_buf (e :: r :: t) =
        header_line e ++ crlf ++ header_scan_buf (r :: t) from rfl]
      have hrt := ih (by simp)
      rw [show write_headers (e :: r :: t) =
        (header_name e ++ [58, 32] ++ header_value e ++ crlf) ++ write_headers (r :: t) by
          simp [write_headers]]
      rw [hrt]
      simp [header_line]

theorem split_at_colon_round (n v : Bytes) (h : ∀ b ∈ n, ¬ b = 58) :
    split_at_colon (n ++ (58 :: v)) = some (n, v) := by
  induction n with
  | nil => simp [split_at_colon]
  | cons c n' ih =>
    have hc : ¬ c = 58 := h c (by simp)
    rw [List.cons_append, split_at_colon, if_neg hc]
    rw [ih (fun b hb => h b (by simp [hb]))]
    rfl

theorem skip_spaces_of_head (v : Bytes) (h : v.head? ≠ some 32) :
    skip_spaces v = v := by
  cases v with
  | nil => rfl
  | cons c v' =>
    have hc : ¬ c = 32 := by
      intro hcon
      exact h (by simp [hcon])
    rw [skip_spaces, if_neg hc]

theorem parse_header_line_round (e : HeaderEntry)
    (hname : ∀ b ∈ header_name e, ¬ b = 58)
    (hval : (header_value e).head? ≠ some 32) :
    parse_header_line (header_line e) = some (header_name e, header_value e) := by
  rw [parse_header_line, header_line]
  rw [show header_name e ++ [58, 32] ++ header_value e =
    header_name e ++ (58 :: (32 :: header_value e)) by simp]
  rw [split_at_colon_round _ _ hname]
  simp only [Option.map]
  rw [show skip_spaces (32 :: header_value e) = skip_spaces (header_value e) by
    rw [skip_spaces, if_pos rfl]]
  rw [skip_spaces_of_head _ hval]

theorem crlf_not_prefix_of_line (e : HeaderEntry) (rest : Bytes)
    (hne : header_name e ≠ [])
    (hnocr : ∀ b ∈ header_name e, ¬ b = 13) :
    crlf.isPrefixOf (header_line e ++ rest) = false := by
  cases hn : header_name e with
  | nil => exact absurd hn hne
  | cons c n' =>
    have hc : ¬ c = 13 := hnocr c (by rw [hn]; simp)
    rw [header_line, hn]
    rw [show ((c :: n') ++ [58, 32] ++ header_value e) ++ rest =
      c :: (n' ++ [58, 32] ++ header_value e ++ rest) by simp]
    rw [show (crlf : Bytes) = 13 :: [10] from rfl, List.isPrefixOf_cons₂]
    have hb : ((13 : Nat) == c) = false :=
      beq_eq_false_iff_ne.mpr (fun hcon => hc hcon.symm)
    rw [hb, Bool.false_and]

theorem no_cr_in_line (e : HeaderEntry)
    (hn : ∀ b ∈ header_name e, ¬ b = 13)
    (hv : ∀ b ∈ header_value e, ¬ b = 13) :
    ∀ b ∈ header_line e, ¬ b = 13 := by
  intro b hb
  rw [header_line] at hb
  simp only [List.append_assoc, List.mem_append, List.mem_cons,
    List.not_mem_nil, or_false, List.mem_singleton] at hb
  rcases hb with h1 | hmid | h3
  · exact hn b h1
  · rcases hmid with h | h <;> omega
  · exact hv b h3

theorem parse_headers_round_trip (hs : Headers) (cap : Nat)
    (hcap : hs.length ≤ cap) (hwf : hs.all wf_header_entry = true) :
    parse_headers cap crlf (hdr_buf hs) =
      .complete (hs.map (fun e => (header_name e, header_value e))) := by
  induction hs generalizing cap with
  | nil =>
    have hp : crlf.isPrefixOf crlf = true := by
      have := isPrefixOf_append_self crlf []
      rwa [List.append_nil] at this
    cases cap with
    | zero =>
      rw [hdr_buf, parse_headers, if_pos hp]
      rfl
    | succ c =>
      rw [hdr_buf, parse_headers, if_pos hp]
      rfl
  | cons e rest ih =>
    rw [List.all_cons, Bool.and_eq_true] at hwf
    obtain ⟨hne, hnm, hvm, hhd, _⟩ := (wf_header_entry_iff e).mp hwf.1
    cases cap with
    | zero => simp at hcap
    | succ c =>
      have hnocr : ∀ b ∈ header_line e, ¬ b = 13 :=
        no_cr_in_line e (fun b hb => (hnm b hb).1) (fun b hb => (hvm b hb).1)
      have hsut : stream_until_token crlf (header_line e ++ crlf ++ hdr_buf rest) =
          ⟨header_line e, hdr_buf rest, true⟩ := by
        have hnoe : no_early_occur crlf (header_line e) = true := by
          rw [show (crlf : Bytes) = 13 :: [10] from rfl]
          exact no_early_of_no_head_byte 13 [10] (header_line e) hnocr
        have := sut_append crlf (header_line e) (hdr_buf rest) (by simp [crlf]) hnoe
        simpa [List.append_assoc] using this
      have hblank : crlf.isPrefixOf (header_line e ++ crlf ++ hdr_buf rest) = false := by
        have := crlf_not_prefix_of_line e (crlf ++ hdr_buf rest) hne
          (fun b hb => (hnm b hb).1)
        simpa [List.append_assoc] using this
      have hpl := parse_header_line_round e (fun b hb => (hnm b hb).2.2) hhd
      rw [hdr_buf, parse_headers,
        if_neg (by simp only [hblank]; exact Bool.false_ne_true), hsut]
      simp [hpl, ih c (by simpa using hcap) hwf.2]

theorem map_from_raw_round (hs : Headers) (hall : hs.all wf_header_entry = true) :
    (hs.map (fun e => (header_name e, header_value e))).map
      (fun nv => from_raw_entry nv.1 nv.2) = hs := by
  induction hs with
  | nil => rfl
  | cons e rest ih =>
    rw [List.all_cons, Bool.and_eq_true] at hall
    obtain ⟨_, _, _, _, hround⟩ := (wf_header_entry_iff e).mp hall.1
    simp only [List.map_cons]
    rw [hround, ih hall.2]

/-- The headers a node carries. -/
def node_headers : Node → Headers
  | .part p => p.headers
  | .file f => f.headers
  | .multipart hs _ => hs

/-- The content bytes a part or file node carries. -/
def node_content : Node → Bytes
  | .part p => p.body
  | .file f => f.content
  | .multipart _ _ => []

/-- Conditions under which one part's serialized form reparses exactly:
nonempty header set of at most the per-part capacity of four, each entry
well formed, headers not describing a nested multipart, no early
CRLFCRLF inside the serialized header block, and no early occurrence of
the terminator-plus-boundary token inside the body. -/
def wf_part_data (bv : Bytes) (hs : Headers) (body : Bytes) : Bool :=
  decide (hs ≠ [] ∧ hs.length ≤ 4 ∧ hs.all wf_header_entry = true
    ∧ part_is_nested hs = false
    ∧ no_early_occur (crlf ++ crlf) (header_scan_buf hs) = true
    ∧ no_early_occur (crlf ++ (ddash ++ bv)) body = true)

theorem wf_part_data_iff (bv : Bytes) (hs : Headers) (body : Bytes) :
    wf_part_data bv hs body = true ↔
      (hs ≠ [] ∧ hs.length ≤ 4 ∧ hs.all wf_header_entry = true
        ∧ part_is_nested hs = false
        ∧ no_early_occur (crlf ++ crlf) (header_scan_buf hs) = true
        ∧ no_early_occur (crlf ++ (ddash ++ bv)) body = true) := by
  rw [wf_part_data]
  exact decide_eq_true_iff

/-- A flat node (no nested multipart) whose data satisfies
wf_part_data for the given boundary value. -/
def wf_flat_node (bv : Bytes) : Node → Bool
  | .part p => wf_part_data bv p.headers p.body
  | .file f => wf_part_data bv f.headers f.content
  | .multipart _ _ => false

/-- The stream the part loop sees when the remaining nodes are ns: for
each node the boundary line's terminator, the serialized headers, the
blank line, the content, and the terminator-plus-boundary token; after
the last node the two dashes of the final boundary. -/
def loop_stream (bv : Bytes) : List Node → Bytes
  | [] => ddash
  | n :: rest =>
    crlf ++ (write_headers (node_headers n) ++ (crlf ++ (node_content n ++
      ((crlf ++ (ddash ++ bv)) ++ loop_stream bv rest))))

/-- The node the parser rebuilds from one flat node's serialized form:
same headers and bytes, classified per part_is_file with the re-parse
flag. -/
def reparse_image (auf : Bool) (n : Node) : Node :=
  if part_is_file (node_headers n) auf then
    Node.file (parsed_file_part (node_headers n) (node_content n))
  else Node.part (Part.mk (node_headers n) (node_content n))

/-- Two flat nodes carry the same headers and the same content bytes,
regardless of the file or inline classification. -/
def node_data_eq : Node → Node → Bool
  | .part p, .part q => decide (p.headers = q.headers) && decide (p.body = q.body)
  | .part p, .file g => decide (p.headers = g.headers) && decide (p.body = g.content)
  | .file f, .part q => decide (f.headers = q.headers) && decide (f.content = q.body)
  | .file f, .file g => decide (f.headers = g.headers) && decide (f.content = g.content)
  | _, _ => false

/-- Pointwise node_data_eq over two node lists of equal length. -/
def nodes_data_eq (a b : List Node) : Bool :=
  a.length == b.length && (a.zip b).all (fun pq => node_data_eq pq.1 pq.2)

theorem inner_loop_enter (f : Nat) (ltlt ltB : Bytes) (auf : Bool) (X : Bytes)
    (acc : List Node) :
    inner_loop (f + 1) crlf ltlt ltB auf (crlf ++ X) acc =
      inner_part f crlf ltlt ltB auf X acc := by
  rw [inner_loop]
  rw [if_neg (by simp [crlf, ddash])]
  rw [sut_self_start crlf X (by simp [crlf])]
  rw [if_neg (by simp)]

theorem inner_part_step (bv : Bytes) (auf : Bool) (f : Nat) (hs : Headers)
    (body tail : Bytes) (acc : List Node)
    (hwfp : wf_part_data bv hs body = true) :
    inner_part (f + 1) crlf (crlf ++ crlf) (crlf ++ (ddash ++ bv)) auf
      (write_headers hs ++ (crlf ++ (body ++ ((crlf ++ (ddash ++ bv)) ++ tail)))) acc =
      inner_loop f crlf (crlf ++ crlf) (crlf ++ (ddash ++ bv)) auf tail
        ((if part_is_file hs auf then Node.file (parsed_file_part hs body)
          else Node.part (Part.mk hs body)) :: acc) := by
  obtain ⟨hne, hcap, hall, hnn, hn1, hn2⟩ := (wf_part_data_iff bv hs body).mp hwfp
  have hX : write_headers hs ++ (crlf ++ (body ++ ((crlf ++ (ddash ++ bv)) ++ tail))) =
      header_scan_buf hs ++
        ((crlf ++ crlf) ++ (body ++ ((crlf ++ (ddash ++ bv)) ++ tail))) := by
    rw [write_headers_eq hs hne]
    simp [List.append_assoc]
  have hr2 : stream_until_token (crlf ++ crlf)
      (header_scan_buf hs ++
        ((crlf ++ crlf) ++ (body ++ ((crlf ++ (ddash ++ bv)) ++ tail)))) =
      ⟨header_scan_buf hs, body ++ ((crlf ++ (ddash ++ bv)) ++ tail), true⟩ :=
    sut_append _ _ _ (by simp [crlf]) hn1
  have hparse : parse_headers 4 crlf (header_scan_buf hs ++ (crlf ++ crlf)) =
      .complete (hs.map (fun e => (header_name e, header_value e))) := by
    rw [hdr_buf_eq hs hne]
    exact parse_headers_round_trip hs 4 hcap hall
  have hmap := map_from_raw_round hs hall
  have hr3 : stream_until_token (crlf ++ (ddash ++ bv))
      (body ++ ((crlf ++ (ddash ++ bv)) ++ tail)) = ⟨body, tail, true⟩ :=
    sut_append _ _ _ (by simp [crlf]) hn2
  have hr3n : stream_until_token (crlf ++ (ddash ++ bv))
      (body ++ (crlf ++ (ddash ++ (bv ++ tail)))) = ⟨body, tail, true⟩ := by
    have hsh : body ++ (crlf ++ (ddash ++ (bv ++ tail))) =
        body ++ ((crlf ++ (ddash ++ bv)) ++ tail) := by
      simp [List.append_assoc]
    rw [hsh]
    exact hr3
  rw [inner_part, hX, hr2]
  simp only [hparse, hmap, hnn]
  cases hfile : part_is_file hs auf <;> simp [hfile, hr3n, parsed_file_part]

theorem inner_loop_round_trip (bv : Bytes) (auf : Bool) (ns : List Node)
    (hwf : ns.all (wf_flat_node bv) = true) :
    ∀ (acc : List Node) (fuel : Nat), 2 * ns.length < fuel →
    inner_loop fuel crlf (crlf ++ crlf) (crlf ++ (ddash ++ bv)) auf
      (loop_stream bv ns) acc =
      .ok (acc.reverse ++ ns.map (reparse_image auf), ddash) := by
  induction ns with
  | nil =>
    intro acc fuel hf
    cases fuel with
    | zero => omega
    | succ f =>
      rw [loop_stream, inner_loop, if_pos (by simp [ddash])]
      simp
  | cons n rest ih =>
    intro acc fuel hf
    cases fuel with
    | zero => omega
    | succ f =>
      cases f with
      | zero =>
        simp only [List.length_cons] at hf
        omega
      | succ f2 =>
        rw [List.all_cons, Bool.and_eq_true] at hwf
        rw [loop_stream]
        cases n with
        | part p =>
          have hwfp : wf_part_data bv p.headers p.body = true := hwf.1
          rw [show node_headers (Node.part p) = p.headers from rfl,
              show node_content (Node.part p) = p.body from rfl]
          rw [inner_loop_enter]
          rw [inner_part_step bv auf f2 p.headers p.body (loop_stream bv rest) acc hwfp]
          rw [ih hwf.2 _ f2 (by simp only [List.length_cons] at hf; omega)]
          simp [reparse_image, node_headers, node_content]
        | file fl =>
          have hwfp : wf_part_data bv fl.headers fl.content = true := hwf.1
          rw [show node_headers (Node.file fl) = fl.headers from rfl,
              show node_content (Node.file fl) = fl.content from rfl]
          rw [inner_loop_enter]
          rw [inner_part_step bv auf f2 fl.headers fl.content (loop_stream bv rest) acc hwfp]
          rw [ih hwf.2 _ f2 (by simp only [List.length_cons] at hf; omega)]
          simp [reparse_image, node_headers, node_content]
        | multipart hs children =>
          have : wf_flat_node bv (Node.multipart hs children) = true := hwf.1
          rw [wf_flat_node] at this
          exact absurd this (by simp)

theorem write_nodes_flat (bv : Bytes) (ns : List Node)
    (hwf : ns.all (wf_flat_node bv) = true) :
    ∃ s, write_nodes bv ns = .ok s ∧
      s ++ (ddash ++ (bv ++ ddash)) = (ddash ++ bv) ++ loop_stream bv ns := by
  induction ns with
  | nil =>
    refine ⟨[], rfl, ?_⟩
    rw [loop_stream]
    simp
  | cons n rest ih =>
    rw [List.all_cons, Bool.and_eq_true] at hwf
    obtain ⟨s2, hs2, heq⟩ := ih hwf.2
    cases n with
    | part p =>
      refine ⟨ddash ++ (bv ++ (crlf ++ ((write_headers p.headers ++ (crlf ++ p.body))
        ++ (crlf ++ s2)))), ?_, ?_⟩
      · simp [write_nodes, write_node, hs2]
      · rw [loop_stream]
        simp only [node_headers, node_content]
        simp only [List.append_assoc] at heq ⊢
        rw [heq]
    | file fl =>
      refine ⟨ddash ++ (bv ++ (crlf ++ ((write_headers fl.headers ++ (crlf ++ fl.content))
        ++ (crlf ++ s2)))), ?_, ?_⟩
      · simp [write_nodes, write_node, hs2]
      · rw [loop_stream]
        simp only [node_headers, node_content]
        simp only [List.append_assoc] at heq ⊢
        rw [heq]
    | multipart hs children =>
      have hcon : wf_flat_node bv (Node.multipart hs children) = true := hwf.1
      rw [wf_flat_node] at hcon
      exact absurd hcon (by simp)

theorem loop_stream_length_ge (bv : Bytes) (ns : List Node) :
    2 * ns.length ≤ (loop_stream bv ns).length := by
  induction ns with
  | nil => simp [loop_stream, ddash]
  | cons n rest ih =>
    rw [loop_stream]
    simp only [List.length_append, List.length_cons, crlf]
    simp at ih ⊢
    omega

theorem nodes_data_eq_reparse (bv : Bytes) (auf : Bool) (ns : List Node)
    (hwf : ns.all (wf_flat_node bv) = true) :
    nodes_data_eq ns (ns.map (reparse_image auf)) = true := by
  induction ns with
  | nil => rfl
  | cons n rest ih =>
    rw [List.all_cons, Bool.and_eq_true] at hwf
    have hrest := ih hwf.2
    rw [nodes_data_eq] at hrest ⊢
    rw [Bool.and_eq_true] at hrest ⊢
    refine ⟨by simp, ?_⟩
    simp only [List.map_cons, List.zip_cons_cons, List.all_cons, Bool.and_eq_true]
    refine ⟨?_, by simpa using hrest.2⟩
    cases n with
    | part p =>
      cases hfile : part_is_file p.headers auf <;>
        simp [node_data_eq, reparse_image, parsed_file_part, node_headers,
          node_content, hfile]
    | file fl =>
      cases hfile : part_is_file fl.headers auf <;>
        simp [node_data_eq, reparse_image, parsed_file_part, node_headers,
          node_content, hfile]
    | multipart hs children =>
      have hcon : wf_flat_node bv (Node.multipart hs children) = true := hwf.1
      rw [wf_flat_node] at hcon
      exact absurd hcon (by simp)

/-- Parsing the serialized form of a nonempty flat node list with
top-level headers that resolve to its boundary yields the reparse image
of every node, in order. -/
theorem read_loop_stream_flat (bv : Bytes) (top_headers : Headers) (auf : Bool)
    (ns : List Node)
    (hb : get_multipart_boundary top_headers = .ok (ddash ++ bv))
    (hne : ns ≠ [])
    (hwf : ns.all (wf_flat_node bv) = true) :
    read_multipart_body ((ddash ++ bv) ++ loop_stream bv ns) top_headers auf =
      .ok (ns.map (reparse_image auf)) := by
  rw [read_multipart_body]
  rw [show ((ddash ++ bv) ++ loop_stream bv ns).length + 2 =
    (((ddash ++ bv) ++ loop_stream bv ns).length + 1) + 1 from rfl]
  rw [inner, hb]
  simp only [sut_self_start (ddash ++ bv) (loop_stream bv ns) (by simp [ddash])]
  obtain ⟨n, rest, rfl⟩ : ∃ a b, ns = a :: b := by
    cases ns with
    | nil => exact absurd rfl hne
    | cons a b => exact ⟨a, b, rfl⟩
  have htake : (loop_stream bv (n :: rest)).take 2 = crlf := by
    rw [loop_stream]
    simp [crlf]
  have hloop := inner_loop_round_trip bv auf (n :: rest) hwf []
    (((ddash ++ bv) ++ loop_stream bv (n :: rest)).length + 1)
    (by
      have h1 := loop_stream_length_ge bv (n :: rest)
      simp only [List.length_append]
      omega)
  rw [if_neg (show ¬ (true = false) by simp)]
  rw [htake, if_pos rfl]
  rw [hloop]
  simp

/-- C1 (amended): round trip for flat trees. For every nonempty node
list without nested Multipart nodes, in which every part or file has a
nonempty header set of at most four well-formed entries that survive the
raw header round trip, headers that do not themselves declare a
multipart Content-Type, no early CRLFCRLF inside the serialized header
block, and a body free of the CRLF-plus-boundary token, write_multipart
succeeds, and re-parsing its output with top-level headers that resolve
to the same boundary (the CRLF terminator convention of the writer)
yields a node sequence with identical headers and identical body bytes
in the same order; only the file or inline classification may differ,
per the always_use_files flag of the re-parse. The unamended claim fails
on the code for nested trees, for parts with no headers, and for parts
with empty bodies (see the counterexample). -/
theorem write_then_read_round_trip (bv : Bytes) (top_headers : Headers) (auf : Bool)
    (ns : List Node)
    (hb : get_multipart_boundary top_headers = .ok (ddash ++ bv))
    (hne : ns ≠ [])
    (hwf : ns.all (wf_flat_node bv) = true) :
    write_multipart bv ns = .ok ((ddash ++ bv) ++ loop_stream bv ns)
  ∧ read_multipart_body ((ddash ++ bv) ++ loop_stream bv ns) top_headers auf =
      .ok (ns.map (reparse_image auf))
  ∧ nodes_data_eq ns (ns.map (reparse_image auf)) = true := by
  obtain ⟨s, hsw, heq⟩ := write_nodes_flat bv ns hwf
  refine ⟨?_, read_loop_stream_flat bv top_headers auf ns hb hne hwf,
    nodes_data_eq_reparse bv auf ns hwf⟩
  rw [write_multipart, hsw]
  simp only [List.append_assoc] at heq ⊢
  rw [heq]

/-- Whether a parse result is the given error. -/
def is_error_result (r : Except Error (List Node)) (e : Error) : Bool :=
  match r with
  | .error e2 => decide (e2 = e)
  | .ok _ => false

/-- The node list of the C1 counterexample: one Part with no headers and
an empty body, whose body trivially does not contain the boundary token. -/
def c1_cex_nodes : List Node := [Node.part (Part.mk [] [])]

/-- Top-level headers declaring multipart/mixed with boundary b. -/
def c1_top_headers : Headers :=
  [HeaderEntry.contentType ⟨TopLevel.multipart, bytesOfString "mixed",
    [(Attr.boundary, MimeValue.ext (bytesOfString "b"))]⟩]

/-- C1 counterexample: the single no-header empty-body Part serializes
successfully, but re-parsing the produced stream with top-level headers
declaring the same boundary fails with EofInPart instead of yielding an
equivalent node sequence, refuting the claim as stated. -/
theorem write_then_read_fails_on_empty_part :
    write_multipart (bytesOfString "b") c1_cex_nodes =
      .ok (bytesOfString "--b\r\n\r\n\r\n--b--")
  ∧ is_error_result
      (read_multipart_body (bytesOfString "--b\r\n\r\n\r\n--b--") c1_top_headers false)
      .EofInPart = true := by
  constructor
  · decide
  · decide

/-- Concrete flat two-node tree for the C1 witness: the file node has no
Content-Disposition, so the re-parse with always_use_files off
reclassifies it inline with unchanged headers and bytes. -/
def c1_wit_nodes : List Node :=
  [Node.part (Part.mk [HeaderEntry.ext (bytesOfString "X-A") (bytesOfString "1")]
    (bytesOfString "hi")),
   Node.file (FilePart.mk [HeaderEntry.ext (bytesOfString "X-B") (bytesOfString "2")]
    [] (bytesOfString "wo") none none)]

/-- Witness for the amended C1 round trip at a concrete flat tree. -/
theorem write_then_read_round_trip_witness :
    write_multipart (bytesOfString "b") c1_wit_nodes =
      .ok ((ddash ++ bytesOfString "b") ++ loop_stream (bytesOfString "b") c1_wit_nodes)
  ∧ read_multipart_body
      ((ddash ++ bytesOfString "b") ++ loop_stream (bytesOfString "b") c1_wit_nodes)
      c1_top_headers false = .ok (c1_wit_nodes.map (reparse_image false))
  ∧ nodes_data_eq c1_wit_nodes (c1_wit_nodes.map (reparse_image false)) = true :=
  write_then_read_round_trip (bytesOfString "b") c1_top_headers false c1_wit_nodes
    (by decide) (by simp [c1_wit_nodes]) (by decide)

mutual

/-- Every file-backed node in the tree records size = Some of the length
of the bytes written to its file. -/
def node_sizes_ok : Node → Bool
  | .part _ => true
  | .file f => decide (f.size = some f.content.length)
  | .multipart _ children => nodes_sizes_ok children

/-- node_sizes_ok over a node list. -/
def nodes_sizes_ok : List Node → Bool
  | [] => true
  | n :: rest => node_sizes_ok n && nodes_sizes_ok rest

end

theorem nodes_sizes_ok_append (a b : List Node) :
    nodes_sizes_ok (a ++ b) = (nodes_sizes_ok a && nodes_sizes_ok b) := by
  induction a with
  | nil => simp [nodes_sizes_ok]
  | cons n rest ih =>
    rw [List.cons_append, nodes_sizes_ok, nodes_sizes_ok, ih, Bool.and_assoc]

theorem nodes_sizes_ok_reverse (a : List Node) :
    nodes_sizes_ok a.reverse = nodes_sizes_ok a := by
  induction a with
  | nil => rfl
  | cons n rest ih =>
    rw [List.reverse_cons, nodes_sizes_ok_append, ih, nodes_sizes_ok,
      nodes_sizes_ok, nodes_sizes_ok, Bool.and_comm]
    simp

theorem sizes_ok_invariant (fuel : Nat) :
    (∀ hs auf input ns rest, inner fuel hs auf input = .ok (ns, rest) →
      nodes_sizes_ok ns = true)
  ∧ (∀ lt ltlt ltB auf input acc ns rest, nodes_sizes_ok acc = true →
      inner_loop fuel lt ltlt ltB auf input acc = .ok (ns, rest) →
      nodes_sizes_ok ns = true)
  ∧ (∀ lt ltlt ltB auf input acc ns rest, nodes_sizes_ok acc = true →
      inner_part fuel lt ltlt ltB auf input acc = .ok (ns, rest) →
      nodes_sizes_ok ns = true) := by
  induction fuel with
  | zero =>
    refine ⟨?_, ?_, ?_⟩ <;> intros _ _ _ _ _ <;> intros
    · exact absurd (by assumption : inner 0 _ _ _ = _) (by rw [inner]; simp)
    · exact absurd (by assumption : inner_loop 0 _ _ _ _ _ _ = _) (by rw [inner_loop]; simp)
    · exact absurd (by assumption : inner_part 0 _ _ _ _ _ _ = _) (by rw [inner_part]; simp)
  | succ f ih =>
    obtain ⟨ih1, ih2, ih3⟩ := ih
    refine ⟨?_, ?_, ?_⟩
    · intro hs auf input ns rest h
      rw [inner] at h
      split at h
      · exact absurd h (by simp)
      · split at h
        · exact absurd h (by simp)
        · split at h
          · refine ih2 _ _ _ _ _ _ _ _ ?_ h
            rfl
          · split at h
            · refine ih2 _ _ _ _ _ _ _ _ ?_ h
              rfl
            · exact absurd h (by simp)
    · intro lt ltlt ltB auf input acc ns rest hacc h
      rw [inner_loop] at h
      split at h
      · cases h
        rw [nodes_sizes_ok_reverse]
        exact hacc
      · split at h
        · exact absurd h (by simp)
        · exact ih3 _ _ _ _ _ _ _ _ hacc h
    · intro lt ltlt ltB auf input acc ns rest hacc h
      rw [inner_part] at h
      split at h
      · exact absurd h (by simp)
      · split at h
        · exact absurd h (by simp)
        · exact absurd h (by simp)
        · split at h
          · split at h
            · exact absurd h (by simp)
            · rename_i heq
              refine ih2 _ _ _ _ _ _ _ _ ?_ h
              rw [nodes_sizes_ok, node_sizes_ok, Bool.and_eq_true]
              exact ⟨ih1 _ _ _ _ _ heq, hacc⟩
          · split at h
            · split at h
              · exact absurd h (by simp)
              · refine ih2 _ _ _ _ _ _ _ _ ?_ h
                rw [nodes_sizes_ok, node_sizes_ok]
                simp [parsed_file_part, hacc]
            · split at h
              · exact absurd h (by simp)
              · refine ih2 _ _ _ _ _ _ _ _ ?_ h
                rw [nodes_sizes_ok, node_sizes_ok]
                simp [hacc]

/-- C3: file-part sizes are exact. First, for every successful parse at
any fuel, every file node anywhere in the resulting tree has
size = Some(length of the bytes written to its file). Second, the size
counts exactly the bytes between the header block's blank line and the
terminating CRLF-plus-boundary token, both excluded: parsing a stream
that embeds the body between the blank line and the terminator yields a
file node whose content is that body and whose size is Some of its
length. -/
theorem filepart_size_exact :
    (∀ fuel hs auf input ns rest, inner fuel hs auf input = .ok (ns, rest) →
      nodes_sizes_ok ns = true)
  ∧ (∀ bv top_headers auf hs body,
      get_multipart_boundary top_headers = .ok (ddash ++ bv) →
      wf_part_data bv hs body = true →
      part_is_file hs auf = true →
      read_multipart_body
        ((ddash ++ bv) ++ (crlf ++ (write_headers hs ++ (crlf ++ (body ++
          ((crlf ++ (ddash ++ bv)) ++ ddash)))))) top_headers auf =
        .ok [Node.file (FilePart.mk hs [] body (some body.length) (some []))]) := by
  constructor
  · intro fuel
    exact (sizes_ok_invariant fuel).1
  · intro bv top_headers auf hs body hb hwfp hfile
    have h := read_loop_stream_flat bv top_headers auf [Node.part (Part.mk hs body)]
      hb (by simp) (by simp [wf_flat_node, hwfp])
    rw [show loop_stream bv [Node.part (Part.mk hs body)] =
      crlf ++ (write_headers hs ++ (crlf ++ (body ++
        ((crlf ++ (ddash ++ bv)) ++ ddash)))) from rfl] at h
    rw [h]
    simp [reparse_image, node_headers, node_content, hfile, parsed_file_part]

/-- Witness for C3 at a concrete single-file stream. -/
theorem filepart_size_exact_witness :
    read_multipart_body
      ((ddash ++ bytesOfString "b") ++ (crlf ++ (write_headers
        [HeaderEntry.ext (bytesOfString "X-A") (bytesOfString "1")] ++ (crlf ++
        (bytesOfString "hi" ++ ((crlf ++ (ddash ++ bytesOfString "b")) ++ ddash))))))
      c1_top_headers true =
      .ok [Node.file (FilePart.mk [HeaderEntry.ext (bytesOfString "X-A") (bytesOfString "1")]
        [] (bytesOfString "hi") (some (bytesOfString "hi").length) (some []))] :=
  filepart_size_exact.2 (bytesOfString "b") c1_top_headers true
    [HeaderEntry.ext (bytesOfString "X-A") (bytesOfString "1")] (bytesOfString "hi")
    (by decide) (by decide) (by decide)

theorem parse_headers_overflow (hs : Headers) (cap : Nat)
    (hcap : cap < hs.length) (hwf : hs.all wf_header_entry = true) :
    parse_headers cap crlf (hdr_buf hs) = .incomplete := by
  induction hs generalizing cap with
  | nil => simp at hcap
  | cons e rest ih =>
    rw [List.all_cons, Bool.and_eq_true] at hwf
    obtain ⟨hne, hnm, hvm, hhd, _⟩ := (wf_header_entry_iff e).mp hwf.1
    have hblank : crlf.isPrefixOf (header_line e ++ crlf ++ hdr_buf rest) = false := by
      have := crlf_not_prefix_of_line e (crlf ++ hdr_buf rest) hne
        (fun b hb => (hnm b hb).1)
      simpa [List.append_assoc] using this
    cases cap with
    | zero =>
      rw [hdr_buf, parse_headers,
        if_neg (by simp only [hblank]; exact Bool.false_ne_true)]
    | succ c =>
      have hnocr : ∀ b ∈ header_line e, ¬ b = 13 :=
        no_cr_in_line e (fun b hb => (hnm b hb).1) (fun b hb => (hvm b hb).1)
      have hsut : stream_until_token crlf (header_line e ++ crlf ++ hdr_buf rest) =
          ⟨header_line e, hdr_buf rest, true⟩ := by
        have hnoe : no_early_occur crlf (header_line e) = true := by
          rw [show (crlf : Bytes) = 13 :: [10] from rfl]
          exact no_early_of_no_head_byte 13 [10] (header_line e) hnocr
        have := sut_append crlf (header_line e) (hdr_buf rest) (by simp [crlf]) hnoe
        simpa [List.append_assoc] using this
      have hpl := parse_header_line_round e (fun b hb => (hnm b hb).2.2) hhd
      rw [hdr_buf, parse_headers,
        if_neg (by simp only [hblank]; exact Bool.false_ne_true), hsut]
      simp [hpl, ih c (by simp only [List.length_cons] at hcap; omega) hwf.2]

theorem inner_part_overflow (auf : Bool) (f : Nat) (hs : Headers)
    (tail : Bytes) (acc : List Node) (ltB : Bytes)
    (hcap : 4 < hs.length) (hall : hs.all wf_header_entry = true)
    (hne1 : no_early_occur (crlf ++ crlf) (header_scan_buf hs) = true) :
    inner_part (f + 1) crlf (crlf ++ crlf) ltB auf
      (write_headers hs ++ (crlf ++ tail)) acc = .error .PartialHeaders := by
  have hne : hs ≠ [] := by
    intro hcon
    rw [hcon] at hcap
    simp at hcap
  have hX : write_headers hs ++ (crlf ++ tail) =
      header_scan_buf hs ++ ((crlf ++ crlf) ++ tail) := by
    rw [write_headers_eq hs hne]
    simp [List.append_assoc]
  have hr2 := sut_append (crlf ++ crlf) (header_scan_buf hs) tail (by simp [crlf]) hne1
  have hparse : parse_headers 4 crlf (header_scan_buf hs ++ (crlf ++ crlf)) =
      .incomplete := by
    rw [hdr_buf_eq hs hne]
    exact parse_headers_overflow hs 4 hcap hall
  rw [inner_part, hX, hr2]
  simp [hparse]

/-- C9: overflowing the fixed header capacity of a call site is a fatal
PartialHeaders failure of the whole parse, with no retry at a larger
capacity: a part whose raw header block holds more than the loop's four
headers makes read_multipart_body fail with PartialHeaders, and a
top-level block of more than sixty-four headers makes read_multipart
fail with PartialHeaders. The header-block parser itself is the
spec-modelled httparse collaborator, which reports an over-capacity
block as an incomplete parse per spec sections 7 and 9. -/
theorem header_capacity_overflow_fatal :
    (∀ bv top_headers auf hs tail,
      get_multipart_boundary top_headers = .ok (ddash ++ bv) →
      4 < hs.length → hs.all wf_header_entry = true →
      no_early_occur (crlf ++ crlf) (header_scan_buf hs) = true →
      read_multipart_body
        ((ddash ++ bv) ++ (crlf ++ (write_headers hs ++ (crlf ++ tail))))
        top_headers auf = .error .PartialHeaders)
  ∧ (∀ top_headers auf tail,
      64 < top_headers.length → top_headers.all wf_header_entry = true →
      no_early_occur (crlf ++ crlf) (header_scan_buf top_headers) = true →
      read_multipart (header_scan_buf top_headers ++ ((crlf ++ crlf) ++ tail))
        auf = .error .PartialHeaders) := by
  constructor
  · intro bv top_headers auf hs tail hb hcap hall hne1
    rw [read_multipart_body]
    rw [show ((ddash ++ bv) ++ (crlf ++ (write_headers hs ++ (crlf ++ tail)))).length + 2 =
      (((ddash ++ bv) ++ (crlf ++ (write_headers hs ++ (crlf ++ tail)))).length + 1) + 1
      from rfl]
    rw [inner, hb]
    simp only [sut_self_start (ddash ++ bv) _ (by simp [ddash])]
    rw [if_neg (show ¬ (true = false) by simp)]
    rw [show (crlf ++ (write_headers hs ++ (crlf ++ tail))).take 2 = crlf by
      simp [crlf]]
    rw [if_pos rfl]
    obtain ⟨m, hm⟩ : ∃ m,
        ((ddash ++ bv) ++ (crlf ++ (write_headers hs ++ (crlf ++ tail)))).length =
          m + 1 := by
      refine ⟨((ddash ++ bv) ++ (crlf ++ (write_headers hs ++ (crlf ++ tail)))).length
        - 1, ?_⟩
      simp only [List.length_append, ddash, crlf, List.length_cons, List.length_nil]
      omega
    rw [hm, inner_loop_enter]
    rw [inner_part_overflow auf m hs tail [] (crlf ++ (ddash ++ bv)) hcap hall hne1]
  · intro top_headers auf tail hcap hall hne1
    have hr := sut_append (crlf ++ crlf) (header_scan_buf top_headers) tail
      (by simp [crlf]) hne1
    have hne : top_headers ≠ [] := by
      intro hcon
      rw [hcon] at hcap
      simp at hcap
    have hparse : parse_headers 64 crlf (header_scan_buf top_headers ++ (crlf ++ crlf)) =
        .incomplete := by
      rw [hdr_buf_eq _ hne]
      exact parse_headers_overflow top_headers 64 hcap hall
    rw [read_multipart, hr]
    simp [hparse]

/-- Five identical raw headers, one more than the per-part capacity. -/
def c9_wit_part_headers : Headers := List.replicate 5 (HeaderEntry.ext [88] [49])

/-- Sixty-five identical raw headers, one more than the top-level
capacity. -/
def c9_wit_top_headers : Headers := List.replicate 65 (HeaderEntry.ext [88] [49])

set_option maxRecDepth 100000 in
/-- Witness for C9 at concrete over-capacity header blocks. -/
theorem header_capacity_overflow_fatal_witness :
    read_multipart_body ((ddash ++ bytesOfString "b") ++
      (crlf ++ (write_headers c9_wit_part_headers ++ (crlf ++ ddash))))
      c1_top_headers false = .error .PartialHeaders
  ∧ read_multipart (header_scan_buf c9_wit_top_headers ++ ((crlf ++ crlf) ++ ddash))
      false = .error .PartialHeaders :=
  ⟨header_capacity_overflow_fatal.1 (bytesOfString "b") c1_top_headers false
      c9_wit_part_headers ddash (by decide) (by decide) (by decide) (by decide),
   header_capacity_overflow_fatal.2 c9_wit_top_headers false ddash
      (by decide) (by decide) (by decide)⟩

theorem sut_found_le (tok l : Bytes) (h : (stream_until_token tok l).found = true) :
    tok.length ≤ l.length := by
  have := sut_found_length tok l h
  omega

theorem isPrefixOf_extend (tok u v : Bytes) (h : tok.isPrefixOf u = true)
    (huv : u <+: v) : tok.isPrefixOf v = true := by
  rw [List.isPrefixOf_iff_prefix] at h ⊢
  exact h.trans huv

theorem take_isPrefixOf_of_le (tok l : Bytes) (k : Nat) (hk : tok.length ≤ k)
    (h : tok.isPrefixOf l = true) : tok.isPrefixOf (l.take k) = true := by
  rw [List.isPrefixOf_iff_prefix] at h ⊢
  rw [List.prefix_iff_eq_take] at h ⊢
  rw [List.take_take, Nat.min_eq_left hk]
  exact h

theorem sut_take_short (tok l a r : Bytes)
    (h : stream_until_token tok l = ⟨a, r, true⟩) :
    ∀ k, k < a.length + tok.length →
      (stream_until_token tok (l.take k)).found = false := by
  induction l generalizing a with
  | nil =>
    intro k hk
    rw [stream_until_token] at h
    by_cases hp : tok.isPrefixOf ([] : Bytes) = true
    · rw [if_pos hp] at h
      have htok : tok = [] := by
        cases tok with
        | nil => rfl
        | cons t tt => simp [List.isPrefixOf] at hp
      have ha : ([] : Bytes) = a := congrArg ScanResult.out h
      rw [← ha, htok] at hk
      simp at hk
    · rw [if_neg (by simpa using hp)] at h
      have hff : false = true := congrArg ScanResult.found h
      simp at hff
  | cons c l2 ih =>
    intro k hk
    rw [stream_until_token] at h
    by_cases hp : tok.isPrefixOf (c :: l2) = true
    · rw [if_pos hp] at h
      have ha : ([] : Bytes) = a := congrArg ScanResult.out h
      rw [← ha] at hk
      simp only [List.length_nil, Nat.zero_add] at hk
      by_contra hcon
      rw [Bool.not_eq_false] at hcon
      have hle := sut_found_le tok ((c :: l2).take k) hcon
      have : ((c :: l2).take k).length ≤ k := by
        rw [List.length_take]
        omega
      omega
    · rw [if_neg (by simpa using hp)] at h
      have ha1 : c :: (stream_until_token tok l2).out = a := congrArg ScanResult.out h
      have ha2 : (stream_until_token tok l2).rest = r := congrArg ScanResult.rest h
      have ha3 : (stream_until_token tok l2).found = true := congrArg ScanResult.found h
      cases k with
      | zero =>
        rw [List.take_zero, stream_until_token]
        have htne : ¬ tok.isPrefixOf ([] : Bytes) = true := by
          intro hcon
          have htok : tok = [] := by
            cases tok with
            | nil => rfl
            | cons t tt => simp [List.isPrefixOf] at hcon
          rw [htok] at hp
          simp at hp
        rw [if_neg (by simpa using htne)]
      | succ k2 =>
        rw [List.take_succ_cons, stream_until_token]
        have hp2 : ¬ tok.isPrefixOf (c :: l2.take k2) = true := by
          intro hcon
          have : tok.isPrefixOf (c :: l2) = true := by
            refine isPrefixOf_extend tok (c :: l2.take k2) (c :: l2) hcon ?_
            exact List.cons_prefix_cons.mpr ⟨rfl, List.take_prefix k2 l2⟩
          exact hp this
        rw [if_neg (by simpa using hp2)]
        have hsub : stream_until_token tok l2 =
            ⟨(stream_until_token tok l2).out, r, true⟩ := by
          rw [← ha2, ← ha3]
        have hrec := ih (stream_until_token tok l2).out hsub k2
          (by rw [← ha1] at hk; simp only [List.length_cons] at hk; omega)
        simpa using hrec

theorem sut_take_long (tok l a r : Bytes)
    (h : stream_until_token tok l = ⟨a, r, true⟩) :
    ∀ k, a.length + tok.length ≤ k →
      stream_until_token tok (l.take k) =
        ⟨a, r.take (k - a.length - tok.length), true⟩ := by
  induction l generalizing a with
  | nil =>
    intro k hk
    rw [stream_until_token] at h
    by_cases hp : tok.isPrefixOf ([] : Bytes) = true
    · rw [if_pos hp] at h
      have ha : ([] : Bytes) = a := congrArg ScanResult.out h
      have hr : ([] : Bytes) = r := congrArg ScanResult.rest h
      rw [← ha, ← hr]
      simp only [List.take_nil, stream_until_token, if_pos hp]
    · rw [if_neg (by simpa using hp)] at h
      have hff : false = true := congrArg ScanResult.found h
      simp at hff
  | cons c l2 ih =>
    intro k hk
    rw [stream_until_token] at h
    by_cases hp : tok.isPrefixOf (c :: l2) = true
    · rw [if_pos hp] at h
      have ha : ([] : Bytes) = a := congrArg ScanResult.out h
      have hr : (c :: l2).drop tok.length = r := congrArg ScanResult.rest h
      rw [← ha] at hk ⊢
      simp only [List.length_nil, Nat.zero_add] at hk
      cases k with
      | zero =>
        have htok : tok = [] := by
          cases tok with
          | nil => rfl
          | cons t tt => simp at hk
        rw [htok, List.take_zero, stream_until_token]
        rw [if_pos (by simp)]
        rw [← hr, htok]
        simp
      | succ k2 =>
        rw [List.take_succ_cons, stream_until_token]
        rw [if_pos (by
          have := take_isPrefixOf_of_le tok (c :: l2) (k2 + 1) hk hp
          rwa [List.take_succ_cons] at this)]
        rw [← hr]
        simp only [ScanResult.mk.injEq, List.length_nil, Nat.sub_zero]
        refine ⟨trivial, ?_, trivial⟩
        rw [show (c :: l2.take k2 : Bytes) = (c :: l2).take (k2 + 1) from
          List.take_succ_cons.symm]
        rw [List.drop_take]
    · rw [if_neg (by simpa using hp)] at h
      have ha1 : c :: (stream_until_token tok l2).out = a := congrArg ScanResult.out h
      have ha2 : (stream_until_token tok l2).rest = r := congrArg ScanResult.rest h
      have ha3 : (stream_until_token tok l2).found = true := congrArg ScanResult.found h
      cases k with
      | zero =>
        rw [← ha1] at hk
        simp at hk
      | succ k2 =>
        rw [List.take_succ_cons, stream_until_token]
        have hp2 : ¬ tok.isPrefixOf (c :: l2.take k2) = true := by
          intro hcon
          exact hp (isPrefixOf_extend tok (c :: l2.take k2) (c :: l2) hcon
            (List.cons_prefix_cons.mpr ⟨rfl, List.take_prefix k2 l2⟩))
        rw [if_neg (by simpa using hp2)]
        have hsub : stream_until_token tok l2 =
            ⟨(stream_until_token tok l2).out, r, true⟩ := by
          rw [← ha2, ← ha3]
        have hrec := ih (stream_until_token tok l2).out hsub k2
          (by rw [← ha1] at hk; simp only [List.length_cons] at hk; omega)
        rw [hrec, ← ha1]
        simp only [List.length_cons, ScanResult.mk.injEq]
        refine ⟨trivial, ?_, trivial⟩
        congr 1
        omega

/-- The five truncation error kinds of the parser (claim C6): the errors
inner produces when the stream ends before the structure it is scanning
for is complete. -/
def trunc_error : Error → Bool
  | .EofBeforeFirstBoundary => true
  | .NoCrLfAfterBoundary => true
  | .EofInPartHeaders => true
  | .EofInFile => true
  | .EofInPart => true
  | _ => false

/-- A parse outcome that is an error of a truncation kind. -/
def result_trunc : Except Error (List Node × Bytes) → Bool
  | .error e => trunc_error e
  | .ok _ => false

theorem result_trunc_of_error (e : Error) (h : trunc_error e = true) :
    result_trunc (.error e) = true := h

theorem result_trunc_inv (r : Except Error (List Node × Bytes))
    (h : result_trunc r = true) : ∃ e, r = .error e ∧ trunc_error e = true := by
  cases r with
  | error e => exact ⟨e, rfl, h⟩
  | ok v => simp [result_trunc] at h

theorem take_take_of_le (l : Bytes) (n k : Nat) (h : n ≤ k) :
    (l.take k).take n = l.take n := by
  rw [List.take_take, Nat.min_eq_left h]

theorem take_short_ne_ddash (l : Bytes) (hl : l.length < 2) :
    ¬ l.take 2 = ddash := by
  intro hcon
  have h1 : (l.take 2).length = l.length := by
    rw [List.length_take]
    omega
  rw [hcon] at h1
  simp [ddash] at h1
  omega

theorem sut_nil_not_found (tok : Bytes) (h : tok ≠ []) :
    stream_until_token tok [] = ⟨[], [], false⟩ := by
  rw [stream_until_token]
  rw [if_neg ?hn]
  case hn =>
    cases tok with
    | nil => exact absurd rfl h
    | cons t tt => simp [List.isPrefixOf]

theorem take_one_of_take_two (l : Bytes) (x y : Nat) (h : l.take 2 = [x, y]) :
    l.take 1 = [x] := by
  have h1 : l.take 1 = (l.take 2).take 1 := by
    rw [take_take_of_le l 1 2 (by omega)]
  rw [h1, h]
  rfl

theorem found_true_of_ne_false (b : Bool) (h : ¬ b = false) : b = true := by
  cases b with
  | false => exact absurd rfl h
  | true => rfl

theorem gmb_ok_shape (hs : Headers) (B : Bytes)
    (h : get_multipart_boundary hs = .ok B) : ∃ v, B = ddash ++ v := by
  rw [get_multipart_boundary] at h
  split at h
  · simp at h
  · split at h
    · split at h
      · simp at h
      · rename_i v hv
        simp at h
        exact ⟨v, h.symm⟩
    · simp at h

theorem gmb_ok_length (hs : Headers) (B : Bytes)
    (h : get_multipart_boundary hs = .ok B) : 2 ≤ B.length := by
  obtain ⟨v, hv⟩ := gmb_ok_shape hs B h
  rw [hv]
  simp [ddash]

/-- Invariant of a successful inner run: the leftover stream starts with
the terminating double dash and is no longer than the input. -/
def plen_inner (fuel : Nat) : Prop :=
  ∀ hs auf input ns rest, inner fuel hs auf input = .ok (ns, rest) →
    rest.take 2 = ddash ∧ rest.length ≤ input.length

/-- The same invariant for the part loop. -/
def plen_loop (fuel : Nat) : Prop :=
  ∀ lt ltlt ltB auf input acc ns rest,
    inner_loop fuel lt ltlt ltB auf input acc = .ok (ns, rest) →
    rest.take 2 = ddash ∧ rest.length ≤ input.length

/-- The same invariant for the loop body. -/
def plen_part (fuel : Nat) : Prop :=
  ∀ lt ltlt ltB auf input acc ns rest,
    inner_part fuel lt ltlt ltB auf input acc = .ok (ns, rest) →
    rest.take 2 = ddash ∧ rest.length ≤ input.length

theorem plen_all : ∀ fuel, plen_inner fuel ∧ plen_loop fuel ∧ plen_part fuel := by
  intro fuel
  induction fuel with
  | zero =>
    refine ⟨?_, ?_, ?_⟩
    · intro hs auf input ns rest h
      rw [inner] at h
      simp at h
    · intro lt ltlt ltB auf input acc ns rest h
      rw [inner_loop] at h
      simp at h
    · intro lt ltlt ltB auf input acc ns rest h
      rw [inner_part] at h
      simp at h
  | succ f ih =>
    obtain ⟨ihI, ihL, ihP⟩ := ih
    have hloop : plen_loop (f + 1) := by
      intro lt ltlt ltB auf input acc ns rest h
      rw [inner_loop] at h
      split at h
      · rename_i hdd
        simp only [Except.ok.injEq, Prod.mk.injEq] at h
        rw [← h.2]
        exact ⟨hdd, Nat.le_refl _⟩
      · split at h
        · simp at h
        · rename_i hdd hf
          have hft : (stream_until_token lt input).found = true :=
            found_true_of_ne_false _ hf
          have hlen := sut_found_length lt input hft
          have := ihP lt ltlt ltB auf (stream_until_token lt input).rest acc ns rest h
          exact ⟨this.1, by omega⟩
    have hpart : plen_part (f + 1) := by
      intro lt ltlt ltB auf input acc ns rest h
      rw [inner_part] at h
      split at h
      · simp at h
      · rename_i hf2
        have hft2 : (stream_until_token ltlt input).found = true :=
          found_true_of_ne_false _ hf2
        have hlen2 := sut_found_length ltlt input hft2
        split at h
        · simp at h
        · simp at h
        · rename_i raws hph
          split at h
          · -- nested branch
            split at h
            · simp at h
            · rename_i children rest2 hin
              have hlin := ihI _ auf (stream_until_token ltlt input).rest children rest2
                (by rw [hin])
              have hll := ihL lt ltlt ltB auf rest2 _ ns rest h
              exact ⟨hll.1, by omega⟩
          · split at h
            · -- file branch
              split at h
              · simp at h
              · rename_i hf3
                have hft3 : (stream_until_token ltB
                    (stream_until_token ltlt input).rest).found = true :=
                  found_true_of_ne_false _ hf3
                have hlen3 := sut_found_length ltB (stream_until_token ltlt input).rest hft3
                have hll := ihL lt ltlt ltB auf _ _ ns rest h
                exact ⟨hll.1, by omega⟩
            · -- inline branch
              split at h
              · simp at h
              · rename_i hf3
                have hft3 : (stream_until_token ltB
                    (stream_until_token ltlt input).rest).found = true :=
                  found_true_of_ne_false _ hf3
                have hlen3 := sut_found_length ltB (stream_until_token ltlt input).rest hft3
                have hll := ihL lt ltlt ltB auf _ _ ns rest h
                exact ⟨hll.1, by omega⟩
    have hinner : plen_inner (f + 1) := by
      intro hs auf input ns rest h
      rw [inner] at h
      split at h
      · simp at h
      · rename_i B hgb
        split at h
        · simp at h
        · rename_i hf1
          have hft1 : (stream_until_token B input).found = true :=
            found_true_of_ne_false _ hf1
          have hlen1 := sut_found_length B input hft1
          split at h
          · have hll := ihL crlf (crlf ++ crlf) (crlf ++ B) auf
              (stream_until_token B input).rest [] ns rest h
            exact ⟨hll.1, by omega⟩
          · split at h
            · have hll := ihL [10] [10, 10] (10 :: B) auf
                (stream_until_token B input).rest [] ns rest h
              exact ⟨hll.1, by omega⟩
            · simp at h
    exact ⟨hinner, hloop, hpart⟩

/-- Fuel monotonicity: any outcome other than running out of fuel is
stable when one more unit of fuel is supplied. -/
def pmono_inner (fuel : Nat) : Prop :=
  ∀ hs auf input r, inner fuel hs auf input = r → r ≠ .error .OutOfFuel →
    inner (fuel + 1) hs auf input = r

/-- Fuel monotonicity for the part loop. -/
def pmono_loop (fuel : Nat) : Prop :=
  ∀ lt ltlt ltB auf input acc r, inner_loop fuel lt ltlt ltB auf input acc = r →
    r ≠ .error .OutOfFuel → inner_loop (fuel + 1) lt ltlt ltB auf input acc = r

/-- Fuel monotonicity for the loop body. -/
def pmono_part (fuel : Nat) : Prop :=
  ∀ lt ltlt ltB auf input acc r, inner_part fuel lt ltlt ltB auf input acc = r →
    r ≠ .error .OutOfFuel → inner_part (fuel + 1) lt ltlt ltB auf input acc = r

theorem pmono_all : ∀ fuel, pmono_inner fuel ∧ pmono_loop fuel ∧ pmono_part fuel := by
  intro fuel
  induction fuel with
  | zero =>
    refine ⟨?_, ?_, ?_⟩
    · intro hs auf input r h hne
      rw [inner] at h
      exact absurd h.symm hne
    · intro lt ltlt ltB auf input acc r h hne
      rw [inner_loop] at h
      exact absurd h.symm hne
    · intro lt ltlt ltB auf input acc r h hne
      rw [inner_part] at h
      exact absurd h.symm hne
  | succ f ih =>
    obtain ⟨ihI, ihL, ihP⟩ := ih
    have hloop : pmono_loop (f + 1) := by
      intro lt ltlt ltB auf input acc r h hne
      rw [inner_loop] at h
      rw [inner_loop]
      split at h
      · rename_i hdd
        rw [if_pos hdd]
        exact h
      · rename_i hdd
        rw [if_neg hdd]
        split at h
        · rename_i hf1
          rw [if_pos hf1]
          exact h
        · rename_i hf1
          rw [if_neg hf1]
          exact ihP lt ltlt ltB auf _ acc r h hne
    have hpart : pmono_part (f + 1) := by
      intro lt ltlt ltB auf input acc r h hne
      rw [inner_part] at h
      rw [inner_part]
      split at h
      · rename_i hf2
        rw [if_pos hf2]
        exact h
      · rename_i hf2
        rw [if_neg hf2]
        split at h
        · exact h
        · exact h
        · rename_i raws hph
          split at h
          · rename_i hnest
            rw [if_pos hnest]
            split at h
            · rename_i e hin
              have hie : e ≠ .OutOfFuel := by
                intro hcon
                rw [hcon] at hin h
                exact hne (h.symm)
              have := ihI _ auf _ (.error e) hin (by
                intro hcon
                exact hie (by injection hcon))
              rw [this]
              exact h
            · rename_i children rest2 hin
              have := ihI _ auf _ (.ok (children, rest2)) hin (by simp)
              rw [this]
              exact ihL lt ltlt ltB auf rest2 _ r h hne
          · rename_i hnest
            rw [if_neg hnest]
            split at h
            · rename_i hfile
              rw [if_pos hfile]
              split at h
              · rename_i hf3
                rw [if_pos hf3]
                exact h
              · rename_i hf3
                rw [if_neg hf3]
                exact ihL lt ltlt ltB auf _ _ r h hne
            · rename_i hfile
              rw [if_neg hfile]
              split at h
              · rename_i hf3
                rw [if_pos hf3]
                exact h
              · rename_i hf3
                rw [if_neg hf3]
                exact ihL lt ltlt ltB auf _ _ r h hne
    have hinner : pmono_inner (f + 1) := by
      intro hs auf input r h hne
      rw [inner] at h
      rw [inner]
      split at h
      · exact h
      · rename_i B hgb
        split at h
        · rename_i hf1
          rw [if_pos hf1]
          exact h
        · rename_i hf1
          rw [if_neg hf1]
          split at h
          · rename_i hc2
            rw [if_pos hc2]
            exact ihL crlf (crlf ++ crlf) (crlf ++ B) auf _ [] r h hne
          · rename_i hc2
            rw [if_neg hc2]
            split at h
            · rename_i hc1
              rw [if_pos hc1]
              exact ihL [10] [10, 10] (10 :: B) auf _ [] r h hne
            · rename_i hc1
              rw [if_neg hc1]
              exact h
    exact ⟨hinner, hloop, hpart⟩

/-- Fuel monotonicity lifted to any larger fuel. -/
theorem mono_le_inner (f g : Nat) (hfg : f ≤ g) (hs : Headers) (auf : Bool)
    (input : Bytes) (r : Except Error (List Node × Bytes))
    (h : inner f hs auf input = r) (hne : r ≠ .error .OutOfFuel) :
    inner g hs auf input = r := by
  induction g with
  | zero =>
    have : f = 0 := by omega
    rw [← this]
    exact h
  | succ g2 ihg =>
    by_cases hle : f ≤ g2
    · exact (pmono_all g2).1 hs auf input r (ihg hle) hne
    · have : f = g2 + 1 := by omega
      rw [← this]
      exact h

theorem gmb_error_not_oof (hs : Headers) (e : Error)
    (h : get_multipart_boundary hs = .error e) : e ≠ .OutOfFuel := by
  rw [get_multipart_boundary] at h
  split at h
  · cases h
    simp
  · split at h
    · split at h
      · cases h
        simp
      · cases h
    · cases h
      simp

/-- With fuel at least two more than the stream length, inner never runs
out of fuel: every loop step consumes at least one stream byte. -/
def pnof_inner (fuel : Nat) : Prop :=
  ∀ hs auf input, input.length + 2 ≤ fuel →
    inner fuel hs auf input ≠ .error .OutOfFuel

/-- Fuel sufficiency for the part loop. -/
def pnof_loop (fuel : Nat) : Prop :=
  ∀ lt ltlt ltB auf input acc, lt ≠ [] → ltlt ≠ [] →
    input.length + 2 ≤ fuel →
    inner_loop fuel lt ltlt ltB auf input acc ≠ .error .OutOfFuel

/-- Fuel sufficiency for the loop body. -/
def pnof_part (fuel : Nat) : Prop :=
  ∀ lt ltlt ltB auf input acc, lt ≠ [] → ltlt ≠ [] →
    input.length + 2 ≤ fuel →
    inner_part fuel lt ltlt ltB auf input acc ≠ .error .OutOfFuel

theorem pnof_all : ∀ fuel, pnof_inner fuel ∧ pnof_loop fuel ∧ pnof_part fuel := by
  intro fuel
  induction fuel with
  | zero =>
    refine ⟨?_, ?_, ?_⟩
    · intro hs auf input hfl
      omega
    · intro lt ltlt ltB auf input acc hlt hltlt hfl
      omega
    · intro lt ltlt ltB auf input acc hlt hltlt hfl
      omega
  | succ f ih =>
    obtain ⟨ihI, ihL, ihP⟩ := ih
    have hloop : pnof_loop (f + 1) := by
      intro lt ltlt ltB auf input acc hlt hltlt hfl
      have hltpos : 0 < lt.length := List.length_pos.mpr hlt
      rw [inner_loop]
      by_cases hdd : input.take 2 = ddash
      · rw [if_pos hdd]
        simp
      · rw [if_neg hdd]
        by_cases hf1 : (stream_until_token lt input).found = false
        · rw [if_pos hf1]
          simp
        · rw [if_neg hf1]
          have hlen := sut_found_length lt input (found_true_of_ne_false _ hf1)
          exact ihP lt ltlt ltB auf _ acc hlt hltlt (by omega)
    have hpart : pnof_part (f + 1) := by
      intro lt ltlt ltB auf input acc hlt hltlt hfl
      have hltltpos : 0 < ltlt.length := List.length_pos.mpr hltlt
      rw [inner_part]
      by_cases hf2 : (stream_until_token ltlt input).found = false
      · rw [if_pos hf2]
        simp
      · rw [if_neg hf2]
        have hlen2 := sut_found_length ltlt input (found_true_of_ne_false _ hf2)
        cases hph : parse_headers 4 lt ((stream_until_token ltlt input).out ++ ltlt) with
        | incomplete =>
          simp only [hph]
          simp
        | err =>
          simp only [hph]
          simp
        | complete raws =>
          simp only [hph]
          by_cases hnest : part_is_nested (raws.map (fun nv => from_raw_entry nv.1 nv.2)) = true
          · rw [if_pos hnest]
            cases hin : inner f (raws.map (fun nv => from_raw_entry nv.1 nv.2)) auf
                (stream_until_token ltlt input).rest with
            | error e =>
              simp only [hin]
              have hnoof := ihI (raws.map (fun nv => from_raw_entry nv.1 nv.2)) auf
                (stream_until_token ltlt input).rest (by omega)
              rw [hin] at hnoof
              simpa using hnoof
            | ok pr =>
              simp only [hin]
              have hplen := ((plen_all f).1 _ auf _ pr.1 pr.2 (by rw [hin]))
              exact ihL lt ltlt ltB auf pr.2 _ hlt hltlt (by omega)
          · rw [if_neg hnest]
            by_cases hfile : part_is_file (raws.map (fun nv => from_raw_entry nv.1 nv.2))
                auf = true
            · rw [if_pos hfile]
              by_cases hf3 : (stream_until_token ltB
                  (stream_until_token ltlt input).rest).found = false
              · rw [if_pos hf3]
                simp
              · rw [if_neg hf3]
                have hlen3 := sut_found_length ltB (stream_until_token ltlt input).rest
                  (found_true_of_ne_false _ hf3)
                exact ihL lt ltlt ltB auf _ _ hlt hltlt (by omega)
            · rw [if_neg hfile]
              by_cases hf3 : (stream_until_token ltB
                  (stream_until_token ltlt input).rest).found = false
              · rw [if_pos hf3]
                simp
              · rw [if_neg hf3]
                have hlen3 := sut_found_length ltB (stream_until_token ltlt input).rest
                  (found_true_of_ne_false _ hf3)
                exact ihL lt ltlt ltB auf _ _ hlt hltlt (by omega)
    have hinner : pnof_inner (f + 1) := by
      intro hs auf input hfl
      rw [inner]
      cases hgb : get_multipart_boundary hs with
      | error e =>
        simp only [hgb]
        have := gmb_error_not_oof hs e hgb
        simpa using this
      | ok B =>
        simp only [hgb]
        have hB2 := gmb_ok_length hs B hgb
        by_cases hf1 : (stream_until_token B input).found = false
        · rw [if_pos hf1]
          simp
        · rw [if_neg hf1]
          have hlen1 := sut_found_length B input (found_true_of_ne_false _ hf1)
          by_cases hc2 : (stream_until_token B input).rest.take 2 = crlf
          · rw [if_pos hc2]
            exact ihL crlf (crlf ++ crlf) (crlf ++ B) auf _ []
              (by simp [crlf]) (by simp [crlf]) (by omega)
          · rw [if_neg hc2]
            by_cases hc1 : (stream_until_token B input).rest.take 1 = [10]
            · rw [if_pos hc1]
              exact ihL [10] [10, 10] (10 :: B) auf _ []
                (by simp) (by simp) (by omega)
            · rw [if_neg hc1]
              simp
    exact ⟨hinner, hloop, hpart⟩

theorem sut_short_input (tok l : Bytes) (h : l.length < tok.length) :
    stream_until_token tok l = ⟨l, [], false⟩ := by
  have hf : (stream_until_token tok l).found = false := by
    by_contra hcon
    have := sut_found_le tok l (found_true_of_ne_false _ hcon)
    omega
  exact sut_not_found tok l hf

theorem sut_single (t0 : Nat) (tt : Bytes) (x : Nat) (hne : ¬ t0 = x) :
    stream_until_token (t0 :: tt) [x] = ⟨[x], [], false⟩ := by
  have hf : (stream_until_token (t0 :: tt) [x]).found = false := by
    rw [stream_until_token]
    rw [if_neg ?hn]
    case hn =>
      intro hcon
      rw [List.isPrefixOf] at hcon
      simp at hcon
      exact hne hcon.1
    rw [sut_nil_not_found (t0 :: tt) (by simp)]
  exact sut_not_found (t0 :: tt) [x] hf

theorem sut_eta_found (tok l : Bytes)
    (h : (stream_until_token tok l).found = true) :
    stream_until_token tok l =
      ⟨(stream_until_token tok l).out, (stream_until_token tok l).rest, true⟩ := by
  rw [← h]

theorem take_two_of_take_one (l : Bytes) : (l.take 1).take 2 = l.take 1 := by
  rw [List.take_take]
  norm_num

/-- Success stability under truncation for inner: cutting the stream
anywhere at or past the final terminator leaves the same parse with a
truncated leftover. -/
def sok_inner (fuel : Nat) : Prop :=
  ∀ hs auf input ns rest, inner fuel hs auf input = .ok (ns, rest) →
    ∀ k, input.length - rest.length + 2 ≤ k →
      inner fuel hs auf (input.take k) =
        .ok (ns, rest.take (k - (input.length - rest.length)))

/-- Truncation soundness for inner: cutting a successfully parsed stream
before its final terminator yields a truncation-kind error. -/
def serr_inner (fuel : Nat) : Prop :=
  ∀ hs auf input ns rest, inner fuel hs auf input = .ok (ns, rest) →
    ∀ k, k + rest.length < input.length + 2 →
      result_trunc (inner fuel hs auf (input.take k)) = true

/-- Success stability under truncation for the part loop. -/
def sok_loop (fuel : Nat) : Prop :=
  ∀ lt ltlt ltB auf input acc ns rest, lt = crlf ∨ lt = [10] → ltlt = lt ++ lt →
    inner_loop fuel lt ltlt ltB auf input acc = .ok (ns, rest) →
    ∀ k, input.length - rest.length + 2 ≤ k →
      inner_loop fuel lt ltlt ltB auf (input.take k) acc =
        .ok (ns, rest.take (k - (input.length - rest.length)))

/-- Truncation soundness for the part loop. -/
def serr_loop (fuel : Nat) : Prop :=
  ∀ lt ltlt ltB auf input acc ns rest, lt = crlf ∨ lt = [10] → ltlt = lt ++ lt →
    inner_loop fuel lt ltlt ltB auf input acc = .ok (ns, rest) →
    ∀ k, k + rest.length < input.length + 2 →
      result_trunc (inner_loop fuel lt ltlt ltB auf (input.take k) acc) = true

/-- Success stability under truncation for the loop body. -/
def sok_part (fuel : Nat) : Prop :=
  ∀ lt ltlt ltB auf input acc ns rest, lt = crlf ∨ lt = [10] → ltlt = lt ++ lt →
    inner_part fuel lt ltlt ltB auf input acc = .ok (ns, rest) →
    ∀ k, input.length - rest.length + 2 ≤ k →
      inner_part fuel lt ltlt ltB auf (input.take k) acc =
        .ok (ns, rest.take (k - (input.length - rest.length)))

/-- Truncation soundness for the loop body. -/
def serr_part (fuel : Nat) : Prop :=
  ∀ lt ltlt ltB auf input acc ns rest, lt = crlf ∨ lt = [10] → ltlt = lt ++ lt →
    inner_part fuel lt ltlt ltB auf input acc = .ok (ns, rest) →
    ∀ k, k + rest.length < input.length + 2 →
      result_trunc (inner_part fuel lt ltlt ltB auf (input.take k) acc) = true

theorem trunc_step_loop (f : Nat) (ihSokP : sok_part f) (ihSerrP : serr_part f) :
    sok_loop (f + 1) ∧ serr_loop (f + 1) := by
  constructor
  · intro lt ltlt ltB auf input acc ns rest hlt2 hltlt2 h k hk
    rw [inner_loop] at h
    split at h
    · rename_i hdd
      simp only [Except.ok.injEq, Prod.mk.injEq] at h
      obtain ⟨hns, hrest⟩ := h
      rw [← hrest] at hk ⊢
      rw [inner_loop]
      rw [if_pos (by rw [take_take_of_le input 2 k (by omega)]; exact hdd)]
      simp [hns, Nat.sub_self]
    · split at h
      · simp at h
      · rename_i hdd hf1
        have hft1 := found_true_of_ne_false _ hf1
        have hlen1 := sut_found_length lt input hft1
        have hsut1 := sut_eta_found lt input hft1
        have hrl := ((plen_all f).2.2 lt ltlt ltB auf _ acc ns rest h).2
        rw [inner_loop]
        rw [if_neg (by rw [take_take_of_le input 2 k (by omega)]; exact hdd)]
        have hlong := sut_take_long lt input _ _ hsut1 k (by omega)
        simp only [hlong]
        rw [if_neg (by simp)]
        have hidx : k - (input.length - rest.length) =
            k - (stream_until_token lt input).out.length - lt.length -
              ((stream_until_token lt input).rest.length - rest.length) := by
          omega
        rw [hidx]
        exact ihSokP lt ltlt ltB auf _ acc ns rest hlt2 hltlt2 h _ (by omega)
  · intro lt ltlt ltB auf input acc ns rest hlt2 hltlt2 h k hk
    have hltne : lt ≠ [] := by
      rcases hlt2 with rfl | rfl <;> simp [crlf]
    rw [inner_loop] at h
    split at h
    · rename_i hdd
      simp only [Except.ok.injEq, Prod.mk.injEq] at h
      obtain ⟨hns, hrest⟩ := h
      rw [← hrest] at hk
      have hk2 : k = 0 ∨ k = 1 := by omega
      rcases hk2 with rfl | rfl
      · rw [List.take_zero, inner_loop]
        rw [if_neg (by simp [ddash])]
        rw [sut_nil_not_found lt hltne]
        rw [if_pos rfl]
        rfl
      · have h45 : input.take 1 = [45] := take_one_of_take_two input 45 45 hdd
        rw [h45, inner_loop]
        rw [if_neg (by simp [ddash])]
        rcases hlt2 with rfl | rfl
        · rw [show stream_until_token crlf [45] = ⟨[45], [], false⟩ from rfl]
          rw [if_pos rfl]
          rfl
        · rw [show stream_until_token [10] [45] = ⟨[45], [], false⟩ from rfl]
          rw [if_pos rfl]
          rfl
    · split at h
      · simp at h
      · rename_i hdd hf1
        have hft1 := found_true_of_ne_false _ hf1
        have hlen1 := sut_found_length lt input hft1
        have hsut1 := sut_eta_found lt input hft1
        have hrl := ((plen_all f).2.2 lt ltlt ltB auf _ acc ns rest h).2
        by_cases hksmall : k < 2
        · have hk2 : k = 0 ∨ k = 1 := by omega
          rcases hk2 with rfl | rfl
          · rw [List.take_zero, inner_loop]
            rw [if_neg (by simp [ddash])]
            rw [sut_nil_not_found lt hltne]
            rw [if_pos rfl]
            rfl
          · cases input with
            | nil =>
              rw [sut_nil_not_found lt hltne] at hft1
              simp at hft1
            | cons i0 itl =>
              rw [show (i0 :: itl : Bytes).take 1 = [i0] from rfl, inner_loop]
              rw [if_neg (by simp [ddash])]
              rcases hlt2 with rfl | rfl
              · rw [sut_short_input crlf [i0] (by simp [crlf])]
                rw [if_pos rfl]
                rfl
              · by_cases hi0 : (10 : Nat) = i0
                · rw [← hi0]
                  rw [show stream_until_token [10] [10] = ⟨[], [], true⟩ from rfl]
                  rw [if_neg (by simp)]
                  cases f with
                  | zero =>
                    rw [inner_part] at h
                    simp at h
                  | succ f2 =>
                    rw [inner_part, hltlt2]
                    rw [sut_nil_not_found ([10] ++ [10] : Bytes) (by simp)]
                    rw [if_pos rfl]
                    rfl
                · rw [sut_single 10 [] i0 hi0]
                  rw [if_pos rfl]
                  rfl
        · rw [inner_loop]
          rw [if_neg (by rw [take_take_of_le input 2 k (by omega)]; exact hdd)]
          by_cases hkshort : k < (stream_until_token lt input).out.length + lt.length
          · have hshort := sut_take_short lt input _ _ hsut1 k hkshort
            rw [if_pos hshort]
            rfl
          · have hlong := sut_take_long lt input _ _ hsut1 k (by omega)
            simp only [hlong]
            rw [if_neg (by simp)]
            exact ihSerrP lt ltlt ltB auf _ acc ns rest hlt2 hltlt2 h _ (by omega)

theorem trunc_step_part (f : Nat) (ihSokI : sok_inner f) (ihSerrI : serr_inner f)
    (ihSokL : sok_loop f) (ihSerrL : serr_loop f) :
    sok_part (f + 1) ∧ serr_part (f + 1) := by
  constructor
  · intro lt ltlt ltB auf input acc ns rest hlt2 hltlt2 h k hk
    rw [inner_part] at h
    split at h
    · simp at h
    · rename_i hf2
      have hft2 := found_true_of_ne_false _ hf2
      have hlen2 := sut_found_length ltlt input hft2
      have hsut2 := sut_eta_found ltlt input hft2
      split at h
      · simp at h
      · simp at h
      · rename_i raws hph
        split at h
        · rename_i hnest
          split at h
          · simp at h
          · rename_i children rest2 hin
            have hplenI := ((plen_all f).1 _ auf _ children rest2 hin).2
            have hplenL := ((plen_all f).2.1 lt ltlt ltB auf rest2 _ ns rest h).2
            rw [inner_part]
            have hlong := sut_take_long ltlt input _ _ hsut2 k (by omega)
            simp only [hlong]
            rw [if_neg (by simp)]
            simp only [hph]
            rw [if_pos hnest]
            have hsokI := ihSokI _ auf _ children rest2 hin
              (k - (stream_until_token ltlt input).out.length - ltlt.length)
              (by omega)
            simp only [hsokI]
            have hidx : k - (input.length - rest.length) =
                (k - (stream_until_token ltlt input).out.length - ltlt.length -
                  ((stream_until_token ltlt input).rest.length - rest2.length)) -
                  (rest2.length - rest.length) := by
              omega
            rw [hidx]
            exact ihSokL lt ltlt ltB auf rest2 _ ns rest hlt2 hltlt2 h _ (by omega)
        · rename_i hnest
          split at h
          · rename_i hfile
            split at h
            · simp at h
            · rename_i hf3
              have hft3 := found_true_of_ne_false _ hf3
              have hlen3 := sut_found_length ltB (stream_until_token ltlt input).rest hft3
              have hsut3 := sut_eta_found ltB (stream_until_token ltlt input).rest hft3
              have hplenL := ((plen_all f).2.1 lt ltlt ltB auf _ _ ns rest h).2
              rw [inner_part]
              have hlong := sut_take_long ltlt input _ _ hsut2 k (by omega)
              simp only [hlong]
              rw [if_neg (by simp)]
              simp only [hph]
              rw [if_neg hnest, if_pos hfile]
              have hlong3 := sut_take_long ltB (stream_until_token ltlt input).rest _ _
                hsut3 (k - (stream_until_token ltlt input).out.length - ltlt.length)
                (by omega)
              simp only [hlong3]
              rw [if_neg (by simp)]
              have hidx : k - (input.length - rest.length) =
                  (k - (stream_until_token ltlt input).out.length - ltlt.length -
                    (stream_until_token ltB
                      (stream_until_token ltlt input).rest).out.length - ltB.length) -
                    ((stream_until_token ltB
                      (stream_until_token ltlt input).rest).rest.length - rest.length) := by
                omega
              rw [hidx]
              exact ihSokL lt ltlt ltB auf _ _ ns rest hlt2 hltlt2 h _ (by omega)
          · rename_i hfile
            split at h
            · simp at h
            · rename_i hf3
              have hft3 := found_true_of_ne_false _ hf3
              have hlen3 := sut_found_length ltB (stream_until_token ltlt input).rest hft3
              have hsut3 := sut_eta_found ltB (stream_until_token ltlt input).rest hft3
              have hplenL := ((plen_all f).2.1 lt ltlt ltB auf _ _ ns rest h).2
              rw [inner_part]
              have hlong := sut_take_long ltlt input _ _ hsut2 k (by omega)
              simp only [hlong]
              rw [if_neg (by simp)]
              simp only [hph]
              rw [if_neg hnest, if_neg hfile]
              have hlong3 := sut_take_long ltB (stream_until_token ltlt input).rest _ _
                hsut3 (k - (stream_until_token ltlt input).out.length - ltlt.length)
                (by omega)
              simp only [hlong3]
              rw [if_neg (by simp)]
              have hidx : k - (input.length - rest.length) =
                  (k - (stream_until_token ltlt input).out.length - ltlt.length -
                    (stream_until_token ltB
                      (stream_until_token ltlt input).rest).out.length - ltB.length) -
                    ((stream_until_token ltB
                      (stream_until_token ltlt input).rest).rest.length - rest.length) := by
                omega
              rw [hidx]
              exact ihSokL lt ltlt ltB auf _ _ ns rest hlt2 hltlt2 h _ (by omega)
  · intro lt ltlt ltB auf input acc ns rest hlt2 hltlt2 h k hk
    rw [inner_part] at h
    split at h
    · simp at h
    · rename_i hf2
      have hft2 := found_true_of_ne_false _ hf2
      have hlen2 := sut_found_length ltlt input hft2
      have hsut2 := sut_eta_found ltlt input hft2
      split at h
      · simp at h
      · simp at h
      · rename_i raws hph
        by_cases hkshort : k <
            (stream_until_token ltlt input).out.length + ltlt.length
        · rw [inner_part]
          rw [if_pos (sut_take_short ltlt input _ _ hsut2 k hkshort)]
          rfl
        · rw [inner_part]
          have hlong := sut_take_long ltlt input _ _ hsut2 k (by omega)
          simp only [hlong]
          rw [if_neg (by simp)]
          simp only [hph]
          split at h
          · rename_i hnest
            rw [if_pos hnest]
            split at h
            · simp at h
            · rename_i children rest2 hin
              have hplenI := ((plen_all f).1 _ auf _ children rest2 hin).2
              have hplenL := ((plen_all f).2.1 lt ltlt ltB auf rest2 _ ns rest h).2
              by_cases hm : (k - (stream_until_token ltlt input).out.length -
                  ltlt.length) + rest2.length <
                  (stream_until_token ltlt input).rest.length + 2
              · have htr := ihSerrI _ auf _ children rest2 hin _ hm
                obtain ⟨e, he, hte⟩ := result_trunc_inv _ htr
                simp only [he]
                exact hte
              · have hsokI := ihSokI _ auf _ children rest2 hin
                  (k - (stream_until_token ltlt input).out.length - ltlt.length)
                  (by omega)
                simp only [hsokI]
                exact ihSerrL lt ltlt ltB auf rest2 _ ns rest hlt2 hltlt2 h _ (by omega)
          · rename_i hnest
            rw [if_neg hnest]
            split at h
            · rename_i hfile
              rw [if_pos hfile]
              split at h
              · simp at h
              · rename_i hf3
                have hft3 := found_true_of_ne_false _ hf3
                have hlen3 := sut_found_length ltB (stream_until_token ltlt input).rest hft3
                have hsut3 := sut_eta_found ltB (stream_until_token ltlt input).rest hft3
                have hplenL := ((plen_all f).2.1 lt ltlt ltB auf _ _ ns rest h).2
                by_cases hm3 : (k - (stream_until_token ltlt input).out.length -
                    ltlt.length) < (stream_until_token ltB
                      (stream_until_token ltlt input).rest).out.length + ltB.length
                · rw [if_pos (sut_take_short ltB (stream_until_token ltlt input).rest
                    _ _ hsut3 _ hm3)]
                  rfl
                · have hlong3 := sut_take_long ltB (stream_until_token ltlt input).rest
                    _ _ hsut3
                    (k - (stream_until_token ltlt input).out.length - ltlt.length)
                    (by omega)
                  simp only [hlong3]
                  rw [if_neg (by simp)]
                  exact ihSerrL lt ltlt ltB auf _ _ ns rest hlt2 hltlt2 h _ (by omega)
            · rename_i hfile
              rw [if_neg hfile]
              split at h
              · simp at h
              · rename_i hf3
                have hft3 := found_true_of_ne_false _ hf3
                have hlen3 := sut_found_length ltB (stream_until_token ltlt input).rest hft3
                have hsut3 := sut_eta_found ltB (stream_until_token ltlt input).rest hft3
                have hplenL := ((plen_all f).2.1 lt ltlt ltB auf _ _ ns rest h).2
                by_cases hm3 : (k - (stream_until_token ltlt input).out.length -
                    ltlt.length) < (stream_until_token ltB
                      (stream_until_token ltlt input).rest).out.length + ltB.length
                · rw [if_pos (sut_take_short ltB (stream_until_token ltlt input).rest
                    _ _ hsut3 _ hm3)]
                  rfl
                · have hlong3 := sut_take_long ltB (stream_until_token ltlt input).rest
                    _ _ hsut3
                    (k - (stream_until_token ltlt input).out.length - ltlt.length)
                    (by omega)
                  simp only [hlong3]
                  rw [if_neg (by simp)]
                  exact ihSerrL lt ltlt ltB auf _ _ ns rest hlt2 hltlt2 h _ (by omega)

theorem trunc_step_inner (f : Nat) (ihSokL : sok_loop f) (ihSerrL : serr_loop f) :
    sok_inner (f + 1) ∧ serr_inner (f + 1) := by
  constructor
  · intro hs auf input ns rest h k hk
    rw [inner] at h
    split at h
    · simp at h
    · rename_i B hgb
      split at h
      · simp at h
      · rename_i hf1
        have hft1 := found_true_of_ne_false _ hf1
        have hlen1 := sut_found_length B input hft1
        have hsut1 := sut_eta_found B input hft1
        split at h
        · rename_i hc2
          have hplenL := ((plen_all f).2.1 crlf (crlf ++ crlf) (crlf ++ B) auf
            _ [] ns rest h).2
          rw [inner]
          simp only [hgb]
          have hlong := sut_take_long B input _ _ hsut1 k (by omega)
          simp only [hlong]
          rw [if_neg (by simp)]
          rw [if_pos (by
            rw [take_take_of_le _ 2 _ (by omega)]
            exact hc2)]
          have hidx : k - (input.length - rest.length) =
              (k - (stream_until_token B input).out.length - B.length) -
                ((stream_until_token B input).rest.length - rest.length) := by
            omega
          rw [hidx]
          exact ihSokL crlf (crlf ++ crlf) (crlf ++ B) auf _ [] ns rest
            (Or.inl rfl) rfl h _ (by omega)
        · split at h
          · rename_i hc2 hc1
            have hplenL := ((plen_all f).2.1 [10] [10, 10] (10 :: B) auf
              _ [] ns rest h).2
            rw [inner]
            simp only [hgb]
            have hlong := sut_take_long B input _ _ hsut1 k (by omega)
            simp only [hlong]
            rw [if_neg (by simp)]
            rw [if_neg (by
              rw [take_take_of_le _ 2 _ (by omega)]
              exact hc2)]
            rw [if_pos (by
              rw [take_take_of_le _ 1 _ (by omega)]
              exact hc1)]
            have hidx : k - (input.length - rest.length) =
                (k - (stream_until_token B input).out.length - B.length) -
                  ((stream_until_token B input).rest.length - rest.length) := by
              omega
            rw [hidx]
            exact ihSokL [10] [10, 10] (10 :: B) auf _ [] ns rest
              (Or.inr rfl) rfl h _ (by omega)
          · simp at h
  · intro hs auf input ns rest h k hk
    rw [inner] at h
    split at h
    · simp at h
    · rename_i B hgb
      split at h
      · simp at h
      · rename_i hf1
        have hft1 := found_true_of_ne_false _ hf1
        have hlen1 := sut_found_length B input hft1
        have hsut1 := sut_eta_found B input hft1
        split at h
        · rename_i hc2
          have hplenL := ((plen_all f).2.1 crlf (crlf ++ crlf) (crlf ++ B) auf
            _ [] ns rest h).2
          rw [inner]
          simp only [hgb]
          by_cases hkshort : k < (stream_until_token B input).out.length + B.length
          · rw [if_pos (sut_take_short B input _ _ hsut1 k hkshort)]
            rfl
          · have hlong := sut_take_long B input _ _ hsut1 k (by omega)
            simp only [hlong]
            rw [if_neg (by simp)]
            by_cases hm2 : 2 ≤ k - (stream_until_token B input).out.length - B.length
            · rw [if_pos (by
                rw [take_take_of_le _ 2 _ hm2]
                exact hc2)]
              exact ihSerrL crlf (crlf ++ crlf) (crlf ++ B) auf _ [] ns rest
                (Or.inl rfl) rfl h _ (by omega)
            · have hm01 : k - (stream_until_token B input).out.length - B.length = 0 ∨
                  k - (stream_until_token B input).out.length - B.length = 1 := by
                omega
              rcases hm01 with hm | hm
              · rw [hm, List.take_zero]
                rw [if_neg (by decide)]
                rw [if_neg (by decide)]
                rfl
              · rw [hm]
                rw [take_one_of_take_two _ 13 10 hc2]
                rw [if_neg (by decide)]
                rw [if_neg (by decide)]
                rfl
        · split at h
          · rename_i hc2 hc1
            have hplenL := ((plen_all f).2.1 [10] [10, 10] (10 :: B) auf
              _ [] ns rest h).2
            rw [inner]
            simp only [hgb]
            by_cases hkshort : k < (stream_until_token B input).out.length + B.length
            · rw [if_pos (sut_take_short B input _ _ hsut1 k hkshort)]
              rfl
            · have hlong := sut_take_long B input _ _ hsut1 k (by omega)
              simp only [hlong]
              rw [if_neg (by simp)]
              by_cases hm0 : k - (stream_until_token B input).out.length - B.length = 0
              · rw [hm0, List.take_zero]
                rw [if_neg (by decide)]
                rw [if_neg (by decide)]
                rfl
              · rw [if_neg (by
                  by_cases hm2 : 2 ≤ k - (stream_until_token B input).out.length -
                      B.length
                  · rw [take_take_of_le _ 2 _ hm2]
                    exact hc2
                  · have hm1 : k - (stream_until_token B input).out.length -
                        B.length = 1 := by omega
                    rw [hm1, take_two_of_take_one, hc1]
                    decide)]
                rw [if_pos (by
                  rw [take_take_of_le _ 1 _ (by omega)]
                  exact hc1)]
                exact ihSerrL [10] [10, 10] (10 :: B) auf _ [] ns rest
                  (Or.inr rfl) rfl h _ (by omega)
          · simp at h

theorem trunc_all : ∀ fuel, (sok_inner fuel ∧ serr_inner fuel) ∧
    (sok_loop fuel ∧ serr_loop fuel) ∧ (sok_part fuel ∧ serr_part fuel) := by
  intro fuel
  induction fuel with
  | zero =>
    refine ⟨⟨?_, ?_⟩, ⟨?_, ?_⟩, ?_, ?_⟩
    · intro hs auf input ns rest h
      rw [inner] at h
      simp at h
    · intro hs auf input ns rest h
      rw [inner] at h
      simp at h
    · intro lt ltlt ltB auf input acc ns rest hlt2 hltlt2 h
      rw [inner_loop] at h
      simp at h
    · intro lt ltlt ltB auf input acc ns rest hlt2 hltlt2 h
      rw [inner_loop] at h
      simp at h
    · intro lt ltlt ltB auf input acc ns rest hlt2 hltlt2 h
      rw [inner_part] at h
      simp at h
    · intro lt ltlt ltB auf input acc ns rest hlt2 hltlt2 h
      rw [inner_part] at h
      simp at h
  | succ f ih =>
    obtain ⟨⟨ihSokI, ihSerrI⟩, ⟨ihSokL, ihSerrL⟩, ihSokP, ihSerrP⟩ := ih
    exact ⟨trunc_step_inner f ihSokL ihSerrL, trunc_step_loop f ihSokP ihSerrP,
      trunc_step_part f ihSokI ihSerrI ihSokL ihSerrL⟩

/-- C6: for a well-formed multipart stream — one inner parses successfully
with the generous fuel read_multipart_body supplies, leaving `rest` at the
final boundary terminator — parsing any prefix cut before that terminator
completes fails with one of the five truncation-kind errors
(EofBeforeFirstBoundary, NoCrLfAfterBoundary, EofInPartHeaders, EofInFile,
EofInPart), never a successful result, and the error return carries no
partial node list. -/
theorem truncated_input_yields_truncation_error
    (input : Bytes) (hs : Headers) (auf : Bool) (ns : List Node) (rest : Bytes)
    (k : Nat)
    (hok : inner (input.length + 2) hs auf input = .ok (ns, rest))
    (hcut : k + rest.length < input.length + 2) :
    ∃ e, read_multipart_body (input.take k) hs auf = .error e ∧
      trunc_error e = true := by
  have hplen := (plen_all (input.length + 2)).1 hs auf input ns rest hok
  have hrest2 : 2 ≤ rest.length := by
    have hl2 : (rest.take 2).length = 2 := by
      rw [hplen.1]
      rfl
    rw [List.length_take] at hl2
    omega
  have hkle : k < input.length := by
    have := hplen.2
    omega
  have htr := (trunc_all (input.length + 2)).1.2 hs auf input ns rest hok k hcut
  obtain ⟨e, he, hte⟩ := result_trunc_inv _ htr
  have hnof := (pnof_all (k + 2)).1 hs auf (input.take k) (by
    rw [List.length_take]
    omega)
  have hmono := mono_le_inner (k + 2) (input.length + 2) (by omega) hs auf
    (input.take k) (inner (k + 2) hs auf (input.take k)) rfl hnof
  have heq : inner (k + 2) hs auf (input.take k) = .error e := by
    rw [← hmono]
    exact he
  refine ⟨e, ?_, hte⟩
  rw [read_multipart_body]
  have hlenk : (input.take k).length = k := by
    rw [List.length_take]
    omega
  rw [hlenk]
  simp only [heq]

/-- Concrete C6 witness: a one-part stream parses fully with two leftover
terminator bytes, and its ten-byte prefix — cut inside the part header
block — fails with a truncation-kind error. -/
theorem truncated_input_truncation_error_witness :
    ∃ e, read_multipart_body
        ((bytesOfString "--b\r\nX-A: 1\r\n\r\nhi\r\n--b--").take 10)
        c1_top_headers false = .error e ∧ trunc_error e = true :=
  truncated_input_yields_truncation_error
    (bytesOfString "--b\r\nX-A: 1\r\n\r\nhi\r\n--b--") c1_top_headers false
    [Node.part (Part.mk [HeaderEntry.ext (bytesOfString "X-A") (bytesOfString "1")]
      (bytesOfString "hi"))]
    (bytesOfString "--") 10 rfl (by decide)

end MimeMultipart
